import Mathlib

/-!
Shallow embedding of `schedule_fixer.py` (the deterministic schedule-repair
engine of the dayplanner repository) together with proofs checking the
specification's claims about it.

Modelling conventions:
* Python `str` is modelled as `List Char` (`PyStr`); string literals are
  written `"...".data`.
* Python `int` is modelled as `Int`; `divmod(n, 60)` is floor
  division/remainder, which for the positive divisor 60 coincides with
  `Int.ediv` / `Int.emod`.
* A Python function that can raise an exception is modelled with `Option`
  (`none` = an exception propagates); `try/except` around a call is
  modelled by matching on the `Option`.
* Python's `list.sort(key=...)` is a stable sort; it is modelled by
  decorating with the key (`mapM`, so that an exception raised while
  computing a key aborts), stably sorting with `List.insertionSort`, and
  undecorating.
-/

/-- Python `str`, modelled as a list of characters. -/
abbrev PyStr := List Char

/-- The whitespace characters stripped by Python's `str.strip()`
(ASCII subset; exotic unicode whitespace is not modelled). -/
def isPySpace (c : Char) : Bool :=
  c = ' ' || c = '\t' || c = '\n' || c = '\r' || c = '\x0b' || c = '\x0c'

/-- Python `s.strip()`. -/
def pyStrip (s : PyStr) : PyStr :=
  ((s.dropWhile isPySpace).reverse.dropWhile isPySpace).reverse

/-- Python `s.split(sep)` for a one-character separator: always returns at
least one piece; consecutive separators yield empty pieces. -/
def pySplit (sep : Char) : PyStr → List PyStr
  | [] => [[]]
  | c :: cs =>
    match pySplit sep cs with
    | [] => [[c]]
    | p :: ps => if c = sep then [] :: p :: ps else (c :: p) :: ps

/-- Decimal value of a non-empty all-digit string, else `none`. -/
def digitsVal (l : PyStr) : Option Nat :=
  if l = [] then none
  else l.foldlM
    (fun acc c => if c.isDigit then some (acc * 10 + (c.toNat - '0'.toNat)) else none) 0

/-- Python `int(s)`: strips whitespace, then an optional sign followed by
decimal digits.  (Underscore digit separators and non-ASCII digits, which
CPython also accepts, are not modelled.) -/
def pyInt (s : PyStr) : Option Int :=
  match pyStrip s with
  | [] => none
  | c :: rest =>
    if c = '-' then (digitsVal rest).map (fun n => -(Int.ofNat n))
    else if c = '+' then (digitsVal rest).map (fun n => Int.ofNat n)
    else (digitsVal (c :: rest)).map (fun n => Int.ofNat n)

/-- `_to_minutes`: `'HH:MM' -> total minutes since midnight`.
`h, m = t.strip().split(":")` raises unless there are exactly two pieces. -/
def to_minutes (t : PyStr) : Option Int :=
  match pySplit ':' (pyStrip t) with
  | [h, m] => do
    let hv ← pyInt h
    let mv ← pyInt m
    pure (hv * 60 + mv)
  | _ => none

/-- Fuel-driven decimal printer (`fuel ≥ n` suffices); digits accumulate in
`acc`; 48 is the code of `'0'`. -/
def natDigitsAux : Nat → Nat → PyStr → PyStr
  | 0, _, acc => acc
  | fuel + 1, n, acc =>
    let d := Char.ofNat (48 + n % 10)
    if n / 10 = 0 then d :: acc else natDigitsAux fuel (n / 10) (d :: acc)

/-- The decimal digit string of `n` (how Python renders a non-negative int). -/
def natDigits (n : Nat) : PyStr := natDigitsAux (n + 1) n []

/-- Python `f"{n:02d}"`: minimum width 2, zero-padding between sign and digits. -/
def py02d (n : Int) : PyStr :=
  if n < 0 then '-' :: natDigits n.natAbs
  else
    let d := natDigits n.natAbs
    if d.length < 2 then '0' :: d else d

/-- `_to_hhmm`: total minutes -> `'HH:MM'` (supports values ≥ 1440);
`divmod` floor-divides, which is `/` and `%` on `Int` here. -/
def to_hhmm (minutes : Int) : PyStr :=
  py02d (minutes / 60) ++ ':' :: py02d (minutes % 60)

/-- `_parse_slot`: `'HH:MM-HH:MM' -> (start_minutes, end_minutes)`, adding
1440 to the end when parsed end ≤ start (overnight). -/
def parse_slot (time_slot : PyStr) : Option (Int × Int) :=
  match pySplit '-' time_slot with
  | [a, b] => do
    let s ← to_minutes a
    let e ← to_minutes b
    pure (s, if e ≤ s then e + 24 * 60 else e)
  | _ => none

/-- `_make_slot`. -/
def make_slot (s e : Int) : PyStr := to_hhmm s ++ '-' :: to_hhmm e

/-- `_overlaps`. -/
def overlaps (s1 e1 s2 e2 : Int) : Bool := s1 < e2 && s2 < e1

/-- One pass of `_subtract_intervals`' outer loop: remove blocker `b` from
every free window, keeping untouched windows and emitting the left / right
leftover portions of split ones. -/
def removeBlocked (b : Int × Int) : List (Int × Int) → List (Int × Int)
  | [] => []
  | (fs, fe) :: rest =>
    if b.2 ≤ fs ∨ b.1 ≥ fe then (fs, fe) :: removeBlocked b rest
    else
      (if fs < b.1 then [(fs, b.1)] else []) ++
        (if b.2 < fe then [(b.2, fe)] else []) ++ removeBlocked b rest

/-- `_subtract_intervals`: free sub-windows of `[start, end]` after removing
all blocked intervals. -/
def subtract_intervals (s e : Int) (blocked : List (Int × Int)) : List (Int × Int) :=
  blocked.foldl (fun free b => removeBlocked b free) [(s, e)]

/-- `models.ScheduledTask`. -/
structure ScheduledTask where
  time_slot : PyStr
  task_name : PyStr
  is_attendance_safe : Bool
  estimated_minutes : Int
deriving DecidableEq, Repr

/-- The `"[CLASS]"` anchor tag. -/
def CLASS_TAG : PyStr := "[CLASS]".data

/-- Python `s.startswith(p)`. -/
def pyStartswith (s p : PyStr) : Bool := p.isPrefixOf s

/-- `task.task_name.startswith("[CLASS]")`. -/
def isClassTask (t : ScheduledTask) : Bool := pyStartswith t.task_name CLASS_TAG

/-- The loop of `_resolve_residual_overlaps`: `prev` is `result[-1]` and
`accRest` holds the rest of `result` in reverse order. -/
def resolveLoop :
    ScheduledTask → List ScheduledTask → List ScheduledTask →
      Option (List ScheduledTask)
  | prev, accRest, [] => some ((prev :: accRest).reverse)
  | prev, accRest, task :: rest => do
    let prev_end := (← parse_slot prev.time_slot).2
    let t ← parse_slot task.time_slot
    if t.1 ≥ prev_end then
      resolveLoop task (prev :: accRest) rest
    else if isClassTask task then
      -- incoming CLASS wins; trim or drop a personal `prev`, then append
      if isClassTask prev then
        resolveLoop task (prev :: accRest) rest
      else
        let prev_start := (← parse_slot prev.time_slot).1
        if prev_start < t.1 then
          resolveLoop task
            ({ time_slot := make_slot prev_start t.1, task_name := prev.task_name,
               is_attendance_safe := prev.is_attendance_safe,
               estimated_minutes := t.1 - prev_start } :: accRest) rest
        else
          resolveLoop task accRest rest
    else
      -- personal task loses: push start to prev_end
      let new_duration := t.2 - prev_end
      if new_duration > 0 then
        resolveLoop
          { time_slot := make_slot prev_end t.2, task_name := task.task_name,
            is_attendance_safe := task.is_attendance_safe,
            estimated_minutes := new_duration } (prev :: accRest) rest
      else
        resolveLoop prev accRest rest

/-- `_resolve_residual_overlaps`. -/
def resolve_residual_overlaps : List ScheduledTask → Option (List ScheduledTask)
  | [] => some []
  | t :: rest => resolveLoop t [] rest

/-- A timetable record as consumed by step 1 of
`build_collision_free_schedule` (the fields of `models.TimetableSlot` that
the engine reads; the unread `code` field is omitted). -/
structure TimetableEntry where
  start_time : PyStr
  end_time : PyStr
  subject : PyStr
  is_attendance_critical : Bool
deriving DecidableEq, Repr

/-- The candidate class dicts built in step 1. -/
structure Candidate where
  start_m : Int
  end_m : Int
  subject : PyStr
  critical : Bool
deriving DecidableEq, Repr

/-- The `(start_str, end_str, subject)` deduplication key of step 1. -/
def entryKey (e : TimetableEntry) : PyStr × PyStr × PyStr :=
  (pyStrip e.start_time, pyStrip e.end_time, e.subject)

/-- Step 1 of `build_collision_free_schedule`: parse timetable entries into
candidates, skipping empty start/end strings and exact duplicates (`seen`
models the `seen_exact` set). -/
def parseCandidates :
    List TimetableEntry → List (PyStr × PyStr × PyStr) → Option (List Candidate)
  | [], _ => some []
  | e :: rest, seen =>
    let start_str := pyStrip e.start_time
    let end_str := pyStrip e.end_time
    if start_str = [] ∨ end_str = [] then parseCandidates rest seen
    else if (start_str, end_str, e.subject) ∈ seen then parseCandidates rest seen
    else do
      let start_m ← to_minutes start_str
      let end_m ← to_minutes end_str
      let tail ← parseCandidates rest ((start_str, end_str, e.subject) :: seen)
      pure ({ start_m := start_m,
              end_m := if end_m ≤ start_m then end_m + 24 * 60 else end_m,
              subject := e.subject,
              critical := e.is_attendance_critical } :: tail)

/-- Sort key order for `candidates.sort(key=lambda c: c["start_m"])`. -/
def candLE (a b : Candidate) : Prop := a.start_m ≤ b.start_m

instance : DecidableRel candLE := fun a b => inferInstanceAs (Decidable (a.start_m ≤ b.start_m))

instance : IsTotal Candidate candLE := ⟨fun a b => Int.le_total a.start_m b.start_m⟩

instance : IsTrans Candidate candLE := ⟨fun _ _ _ h h' => le_trans h h'⟩

/-- `candidates.sort(key=lambda c: c["start_m"])` (Python sorts are stable,
as is `List.insertionSort`). -/
def sortCandidates (cs : List Candidate) : List Candidate := List.insertionSort candLE cs

/-- The `[CLASS]` anchor task built from an accepted candidate. -/
def mkClassTask (c : Candidate) : ScheduledTask :=
  { time_slot := make_slot c.start_m c.end_m,
    task_name := "[CLASS] ".data ++ c.subject,
    is_attendance_safe := !c.critical,
    estimated_minutes := c.end_m - c.start_m }

/-- Step 2 of `build_collision_free_schedule`: greedily assign one class per
occupied window; returns `(class_tasks, accepted_intervals)`. -/
def assignClasses :
    List Candidate → List (Int × Int) → List ScheduledTask × List (Int × Int)
  | [], accepted => ([], accepted)
  | c :: rest, accepted =>
    if accepted.any (fun p => overlaps c.start_m c.end_m p.1 p.2) then
      assignClasses rest accepted
    else
      let r := assignClasses rest (accepted ++ [(c.start_m, c.end_m)])
      (mkClassTask c :: r.1, r.2)

/-- Sort key order for `.sort(key=lambda t: _parse_slot(t.time_slot)[0])`,
on key-decorated tasks. -/
def taskLE (a b : Int × ScheduledTask) : Prop := a.1 ≤ b.1

instance : DecidableRel taskLE := fun a b => inferInstanceAs (Decidable (a.1 ≤ b.1))

instance : IsTotal (Int × ScheduledTask) taskLE := ⟨fun a b => Int.le_total a.1 b.1⟩

instance : IsTrans (Int × ScheduledTask) taskLE := ⟨fun _ _ _ h h' => le_trans h h'⟩

/-- Decorate each task with its parsed start (the sort key); a slot whose
parse raises propagates the exception for the whole sort. -/
def keyTasks : List ScheduledTask → Option (List (Int × ScheduledTask))
  | [] => some []
  | t :: ts => do
    let p ← parse_slot t.time_slot
    let rest ← keyTasks ts
    pure ((p.1, t) :: rest)

/-- `tasks.sort(key=lambda t: _parse_slot(t.time_slot)[0])`: computing a key
may raise (propagated as `none`); the sort itself is stable. -/
def sortTasksByStart (ts : List ScheduledTask) : Option (List ScheduledTask) :=
  (keyTasks ts).map (fun keyed => (List.insertionSort taskLE keyed).map (·.2))

/-- `[_parse_slot(ct.time_slot) for ct in class_tasks]`. -/
def parseAll : List ScheduledTask → Option (List (Int × Int))
  | [] => some []
  | t :: ts => do
    let p ← parse_slot t.time_slot
    let rest ← parseAll ts
    pure (p :: rest)

/-- Step 4 of `build_collision_free_schedule` for one personal task: an
unparsable slot is skipped (`except Exception: continue`), otherwise one
entry per free window of positive duration. -/
def fitTask (fixed : List (Int × Int)) (task : ScheduledTask) : List ScheduledTask :=
  match parse_slot task.time_slot with
  | none => []
  | some (ts, te) =>
    (subtract_intervals ts te fixed).filterMap (fun w =>
      if w.2 - w.1 ≤ 0 then none
      else some { time_slot := make_slot w.1 w.2, task_name := task.task_name,
                  is_attendance_safe := task.is_attendance_safe,
                  estimated_minutes := w.2 - w.1 })

/-- Steps 1–2 packaged: the `class_tasks` list before the chronological
sort (used to state anchor-preservation claims). -/
def classTasksOf (timetable_entries : List TimetableEntry) : Option (List ScheduledTask) :=
  (parseCandidates timetable_entries []).map
    (fun cs => (assignClasses (sortCandidates cs) []).1)

/-- `build_collision_free_schedule` (`none` models an uncaught exception). -/
def build_collision_free_schedule (llm_tasks : List ScheduledTask)
    (timetable_entries : List TimetableEntry) : Option (List ScheduledTask) := do
  let candidates ← parseCandidates timetable_entries []
  let candidates := sortCandidates candidates
  let class_tasks0 := (assignClasses candidates []).1
  let class_tasks ← sortTasksByStart class_tasks0
  let fixed_intervals ← parseAll class_tasks
  let personal_tasks := llm_tasks.filter (fun t => !isClassTask t)
  let fitted_personal := personal_tasks.flatMap (fitTask fixed_intervals)
  let merged ← sortTasksByStart (class_tasks ++ fitted_personal)
  resolve_residual_overlaps merged

example : to_minutes "09:30".data = some 570 := by decide

example : parse_slot "22:00-02:00".data = some (1320, 1560) := by decide

example : make_slot 2880 6500 = "48:00-108:20".data := by decide

/-! ### Analysis helpers (not part of the source embedding) -/

/-- Parsed start of a task's slot (defaulting to 0; meaningful under `parses`). -/
def pstart (t : ScheduledTask) : Int := ((parse_slot t.time_slot).getD (0, 0)).1

/-- Parsed end of a task's slot (defaulting to 0; meaningful under `parses`). -/
def pend (t : ScheduledTask) : Int := ((parse_slot t.time_slot).getD (0, 0)).2

/-- The task's slot parses (so `_parse_slot` would not raise on it). -/
def parses (t : ScheduledTask) : Prop := (parse_slot t.time_slot).isSome

theorem parse_slot_eq_of_parses {t : ScheduledTask} (h : parses t) :
    parse_slot t.time_slot = some (pstart t, pend t) := by
  unfold parses at h
  unfold pstart pend
  cases hp : parse_slot t.time_slot with
  | none => rw [hp] at h; simp at h
  | some p => simp [hp]

theorem parses_of_eq {t : ScheduledTask} {p : Int × Int}
    (h : parse_slot t.time_slot = some p) : parses t ∧ pstart t = p.1 ∧ pend t = p.2 := by
  refine ⟨?_, ?_, ?_⟩ <;> simp [parses, pstart, pend, h]

/-! ### Decimal digit strings -/

/-- The pure digit-folding value underlying `digitsVal`. -/
def dval (a : Nat) (l : PyStr) : Nat :=
  l.foldl (fun acc c => acc * 10 + (c.toNat - '0'.toNat)) a

theorem dval_append (a : Nat) (xs ys : PyStr) :
    dval a (xs ++ ys) = dval (dval a xs) ys := by
  simp [dval, List.foldl_append]

theorem digitsVal_eq_dval {l : PyStr} (hne : l ≠ [])
    (hd : ∀ c ∈ l, c.isDigit = true) : digitsVal l = some (dval 0 l) := by
  have aux : ∀ (m : PyStr) (a : Nat), (∀ c ∈ m, c.isDigit = true) →
      m.foldlM (fun acc c =>
        if c.isDigit then some (acc * 10 + (c.toNat - '0'.toNat)) else none) a =
        some (dval a m) := by
    intro m
    induction m with
    | nil => intro a _; simp [dval]
    | cons c cs ih =>
      intro a hall
      have hc : c.isDigit = true := hall c (by simp)
      have step := ih (a * 10 + (c.toNat - '0'.toNat)) (fun x hx => hall x (by simp [hx]))
      simp only [List.foldlM_cons, hc, if_true]
      exact step
  unfold digitsVal
  rw [if_neg hne]
  exact aux l 0 hd

theorem zeroCharToNat : '0'.toNat = 48 := rfl

theorem digit_char_spec {m : Nat} (hm : m < 10) :
    (Char.ofNat (48 + m)).isDigit = true ∧ (Char.ofNat (48 + m)).toNat - 48 = m := by
  interval_cases m <;> exact ⟨by decide, by decide⟩

theorem natDigitsAux_spec :
    ∀ (fuel n : Nat) (acc : PyStr), n < 10 ^ (fuel + 1) →
      ∃ ds, natDigitsAux (fuel + 1) n acc = ds ++ acc ∧ ds ≠ [] ∧
        (∀ c ∈ ds, c.isDigit = true) ∧ ∀ a, dval a ds = a * 10 ^ ds.length + n := by
  intro fuel
  induction fuel with
  | zero =>
    intro n acc h
    have h9 : n < 10 := by simpa using h
    have h10 : n / 10 = 0 := by omega
    refine ⟨[Char.ofNat (48 + n % 10)], by simp [natDigitsAux, h10], by simp, ?_, ?_⟩
    · intro c hc
      rw [List.mem_singleton] at hc
      subst hc
      exact (digit_char_spec (Nat.mod_lt _ (by omega))).1
    · intro a
      have hn : n % 10 = n := by omega
      simp [dval, hn, (digit_char_spec h9).2]
  | succ fuel ih =>
    intro n acc h
    by_cases h10 : n / 10 = 0
    · have h9 : n < 10 := by omega
      refine ⟨[Char.ofNat (48 + n % 10)], by simp [natDigitsAux, h10], by simp, ?_, ?_⟩
      · intro c hc
        rw [List.mem_singleton] at hc
        subst hc
        exact (digit_char_spec (Nat.mod_lt _ (by omega))).1
      · intro a
        have hn : n % 10 = n := by omega
        simp [dval, hn, (digit_char_spec h9).2]
    · have hlt : n / 10 < 10 ^ (fuel + 1) := by
        rw [Nat.div_lt_iff_lt_mul (by omega : (0 : Nat) < 10)]
        calc n < 10 ^ (fuel + 1 + 1) := h
          _ = 10 ^ (fuel + 1) * 10 := pow_succ 10 (fuel + 1)
      obtain ⟨ds, heq, hne, hdig, hval⟩ :=
        ih (n / 10) (Char.ofNat (48 + n % 10) :: acc) hlt
      refine ⟨ds ++ [Char.ofNat (48 + n % 10)], ?_, by simp, ?_, ?_⟩
      · show natDigitsAux (fuel + 1 + 1) n acc = _
        rw [natDigitsAux, if_neg h10, heq]
        simp
      · intro c hc
        rcases List.mem_append.1 hc with h' | h'
        · exact hdig c h'
        · rw [List.mem_singleton] at h'
          subst h'
          exact (digit_char_spec (Nat.mod_lt _ (by omega))).1
      · intro a
        rw [dval_append, hval a]
        have hdm : n / 10 * 10 + n % 10 = n := by omega
        have hd2 := (digit_char_spec (Nat.mod_lt n (by omega : (0 : Nat) < 10))).2
        simp only [dval, List.foldl_cons, List.foldl_nil, zeroCharToNat, hd2,
          List.length_append, List.length_singleton, pow_succ]
        linear_combination hdm

theorem natDigits_spec (n : Nat) :
    natDigits n ≠ [] ∧ (∀ c ∈ natDigits n, c.isDigit = true) ∧ dval 0 (natDigits n) = n := by
  have h : n < 10 ^ (n + 1) :=
    lt_of_lt_of_le (Nat.lt_pow_self (by omega) n) (Nat.pow_le_pow_right (by omega) (by omega))
  obtain ⟨ds, heq, hne, hdig, hval⟩ := natDigitsAux_spec n n [] h
  unfold natDigits
  rw [heq, List.append_nil]
  exact ⟨hne, hdig, by simpa using hval 0⟩

/-! ### Strip and split lemmas -/

theorem pyStrip_eq_self {l : PyStr} (h : ∀ c ∈ l, isPySpace c = false) :
    pyStrip l = l := by
  have drop : ∀ (m : PyStr), (∀ c ∈ m, isPySpace c = false) → m.dropWhile isPySpace = m := by
    intro m hm
    cases m with
    | nil => rfl
    | cons c cs => simp [List.dropWhile_cons, hm c (by simp)]
  unfold pyStrip
  rw [drop l h, drop l.reverse (fun c hc => h c (List.mem_reverse.1 hc)), List.reverse_reverse]

theorem mem_of_mem_pyStrip {l : PyStr} {c : Char} (h : c ∈ pyStrip l) : c ∈ l := by
  unfold pyStrip at h
  have h1 := List.mem_reverse.1 h
  have h2 := (List.dropWhile_sublist isPySpace).subset h1
  have h3 := List.mem_reverse.1 h2
  exact (List.dropWhile_sublist isPySpace).subset h3

theorem pySplit_ne_nil (sep : Char) (l : PyStr) : pySplit sep l ≠ [] := by
  cases l with
  | nil => simp [pySplit]
  | cons c cs =>
    simp only [pySplit]
    cases pySplit sep cs with
    | nil => simp
    | cons p ps => by_cases h : c = sep <;> simp [h]

theorem pySplit_no_sep {sep : Char} {l : PyStr} (h : sep ∉ l) : pySplit sep l = [l] := by
  induction l with
  | nil => rfl
  | cons c cs ih =>
    have hc : c ≠ sep := fun e => h (e ▸ List.mem_cons_self c cs)
    have hcs : sep ∉ cs := fun e => h (List.mem_cons_of_mem _ e)
    simp only [pySplit, ih hcs]
    simp [hc]

theorem pySplit_append_sep {sep : Char} {xs : PyStr} (ys : PyStr) (h : sep ∉ xs) :
    pySplit sep (xs ++ sep :: ys) = xs :: pySplit sep ys := by
  induction xs with
  | nil =>
    simp only [List.nil_append, pySplit]
    cases hys : pySplit sep ys with
    | nil => exact absurd hys (pySplit_ne_nil sep ys)
    | cons p ps => simp
  | cons c cs ih =>
    have hc : c ≠ sep := fun e => h (e ▸ List.mem_cons_self c cs)
    have hcs : sep ∉ cs := fun e => h (List.mem_cons_of_mem _ e)
    show pySplit sep (c :: (cs ++ sep :: ys)) = (c :: cs) :: pySplit sep ys
    rw [pySplit, ih hcs]
    simp [hc]

theorem mem_of_mem_pySplit {sep : Char} :
    ∀ {l p : PyStr}, p ∈ pySplit sep l → ∀ {c : Char}, c ∈ p → c ∈ l := by
  intro l
  induction l with
  | nil =>
    intro p hp c hc
    simp [pySplit] at hp
    subst hp
    simp at hc
  | cons a as ih =>
    intro p hp c hc
    cases hq : pySplit sep as with
    | nil => exact absurd hq (pySplit_ne_nil sep as)
    | cons q qs =>
      simp only [pySplit, hq] at hp
      by_cases ha : a = sep
      · rw [if_pos ha] at hp
        rcases List.mem_cons.1 hp with hp | hp
        · subst hp; simp at hc
        · rcases List.mem_cons.1 hp with hp | hp
          · exact List.mem_cons_of_mem _ (ih (hq ▸ List.mem_cons_self q qs) (hp ▸ hc))
          · exact List.mem_cons_of_mem _ (ih (hq ▸ List.mem_cons_of_mem _ hp) hc)
      · rw [if_neg ha] at hp
        rcases List.mem_cons.1 hp with hp | hp
        · subst hp
          rcases List.mem_cons.1 hc with hc | hc
          · exact hc ▸ List.mem_cons_self a as
          · exact List.mem_cons_of_mem _ (ih (hq ▸ List.mem_cons_self q qs) hc)
        · exact List.mem_cons_of_mem _ (ih (hq ▸ List.mem_cons_of_mem _ hp) hc)

theorem sep_not_mem_pySplit {sep : Char} :
    ∀ {l p : PyStr}, p ∈ pySplit sep l → sep ∉ p := by
  intro l
  induction l with
  | nil =>
    intro p hp
    simp [pySplit] at hp
    subst hp
    simp
  | cons a as ih =>
    intro p hp
    cases hq : pySplit sep as with
    | nil => exact absurd hq (pySplit_ne_nil sep as)
    | cons q qs =>
      simp only [pySplit, hq] at hp
      by_cases ha : a = sep
      · rw [if_pos ha] at hp
        rcases List.mem_cons.1 hp with hp | hp
        · subst hp; simp
        · rcases List.mem_cons.1 hp with hp | hp
          · exact fun hmem => ih (hq ▸ List.mem_cons_self q qs) (hp ▸ hmem)
          · exact ih (hq ▸ List.mem_cons_of_mem _ hp)
      · rw [if_neg ha] at hp
        rcases List.mem_cons.1 hp with hp | hp
        · subst hp
          intro hmem
          rcases List.mem_cons.1 hmem with hmem | hmem
          · exact ha hmem.symm
          · exact ih (hq ▸ List.mem_cons_self q qs) hmem
        · exact ih (hq ▸ List.mem_cons_of_mem _ hp)

/-! ### Integer parsing and printing round trips -/

theorem isDigit_char_facts {c : Char} (h : c.isDigit = true) :
    isPySpace c = false ∧ c ≠ '-' ∧ c ≠ '+' ∧ c ≠ ':' := by
  refine ⟨?_, ?_, ?_, ?_⟩
  · cases hsp : isPySpace c
    · rfl
    · exfalso
      simp only [isPySpace, Bool.or_eq_true, decide_eq_true_eq] at hsp
      repeat rcases hsp with hsp | rfl
      all_goals exact absurd h (by decide)
  · rintro rfl; exact absurd h (by decide)
  · rintro rfl; exact absurd h (by decide)
  · rintro rfl; exact absurd h (by decide)

theorem pyInt_digits {l : PyStr} (hne : l ≠ []) (hd : ∀ c ∈ l, c.isDigit = true) :
    pyInt l = some ((dval 0 l : Nat) : Int) := by
  have hstrip : pyStrip l = l :=
    pyStrip_eq_self (fun c hc => (isDigit_char_facts (hd c hc)).1)
  unfold pyInt
  rw [hstrip]
  cases l with
  | nil => exact absurd rfl hne
  | cons c cs =>
    have hc := hd c (by simp)
    dsimp only
    rw [if_neg (isDigit_char_facts hc).2.1, if_neg (isDigit_char_facts hc).2.2.1]
    rw [digitsVal_eq_dval (by simp) hd]
    rfl

theorem pyInt_nonneg {s : PyStr} (hnd : '-' ∉ s) {v : Int} (h : pyInt s = some v) :
    0 ≤ v := by
  unfold pyInt at h
  cases hstrip : pyStrip s with
  | nil => rw [hstrip] at h; exact absurd h (by simp)
  | cons c rest =>
    rw [hstrip] at h
    dsimp only at h
    have hc : c ≠ '-' := fun e => hnd (mem_of_mem_pyStrip (hstrip ▸ (e ▸ List.mem_cons_self c rest)))
    rw [if_neg hc] at h
    by_cases hp : c = '+'
    · rw [if_pos hp] at h
      rcases Option.map_eq_some'.1 h with ⟨n, _, rfl⟩
      exact Int.natCast_nonneg n
    · rw [if_neg hp] at h
      rcases Option.map_eq_some'.1 h with ⟨n, _, rfl⟩
      exact Int.natCast_nonneg n

theorem py02d_spec {n : Int} (hn : 0 ≤ n) :
    py02d n ≠ [] ∧ (∀ c ∈ py02d n, c.isDigit = true) ∧ dval 0 (py02d n) = n.natAbs := by
  obtain ⟨h1, h2, h3⟩ := natDigits_spec n.natAbs
  unfold py02d
  rw [if_neg (not_lt.2 hn)]
  by_cases hlen : (natDigits n.natAbs).length < 2
  · rw [if_pos hlen]
    refine ⟨by simp, ?_, ?_⟩
    · intro c hc
      rcases List.mem_cons.1 hc with rfl | hc
      · decide
      · exact h2 c hc
    · show dval 0 ('0' :: natDigits n.natAbs) = n.natAbs
      have : dval 0 ('0' :: natDigits n.natAbs) = dval 0 (natDigits n.natAbs) := by
        simp [dval]
      rw [this, h3]
  · rw [if_neg hlen]
    exact ⟨h1, h2, h3⟩

theorem to_hhmm_chars {x : Int} (hx : 0 ≤ x) :
    ∀ c ∈ to_hhmm x, c = ':' ∨ c.isDigit = true := by
  have hh : 0 ≤ x / 60 := by omega
  have hm : 0 ≤ x % 60 := by omega
  intro c hc
  unfold to_hhmm at hc
  rcases List.mem_append.1 hc with hc | hc
  · exact Or.inr ((py02d_spec hh).2.1 c hc)
  · rcases List.mem_cons.1 hc with rfl | hc
    · exact Or.inl rfl
    · exact Or.inr ((py02d_spec hm).2.1 c hc)

theorem to_minutes_to_hhmm {x : Int} (hx : 0 ≤ x) : to_minutes (to_hhmm x) = some x := by
  have hh : 0 ≤ x / 60 := by omega
  have hm : 0 ≤ x % 60 := by omega
  obtain ⟨hne1, hdig1, hval1⟩ := py02d_spec hh
  obtain ⟨hne2, hdig2, hval2⟩ := py02d_spec hm
  have hstrip : pyStrip (to_hhmm x) = to_hhmm x := by
    refine pyStrip_eq_self (fun c hc => ?_)
    rcases to_hhmm_chars hx c hc with rfl | hd
    · decide
    · exact (isDigit_char_facts hd).1
  have hnosep1 : ':' ∉ py02d (x / 60) :=
    fun hc => absurd (hdig1 _ hc) (by intro hd; exact (isDigit_char_facts hd).2.2.2 rfl)
  have hnosep2 : ':' ∉ py02d (x % 60) :=
    fun hc => absurd (hdig2 _ hc) (by intro hd; exact (isDigit_char_facts hd).2.2.2 rfl)
  unfold to_minutes
  rw [hstrip]
  show (match pySplit ':' (to_hhmm x) with
    | [h, m] => do
      let hv ← pyInt h
      let mv ← pyInt m
      pure (hv * 60 + mv)
    | _ => none) = some x
  unfold to_hhmm
  rw [pySplit_append_sep _ hnosep1, pySplit_no_sep hnosep2]
  simp only [pyInt_digits hne1 hdig1, pyInt_digits hne2 hdig2, Option.bind_eq_bind,
    Option.some_bind, hval1, hval2, Option.pure_def, Option.some.injEq,
    Int.ofNat_eq_natCast]
  rw [Int.natAbs_of_nonneg hh, Int.natAbs_of_nonneg hm]
  omega

theorem to_hhmm_no_dash {x : Int} (hx : 0 ≤ x) : '-' ∉ to_hhmm x := by
  intro hc
  rcases to_hhmm_chars hx '-' hc with h | h
  · exact absurd h (by decide)
  · exact absurd h (by decide)

theorem parse_make_slot {a b : Int} (ha : 0 ≤ a) (hb : 0 ≤ b) :
    parse_slot (make_slot a b) = some (a, if b ≤ a then b + 1440 else b) := by
  unfold parse_slot make_slot
  rw [pySplit_append_sep _ (to_hhmm_no_dash ha), pySplit_no_sep (to_hhmm_no_dash hb)]
  simp only [to_minutes_to_hhmm ha, to_minutes_to_hhmm hb, Option.bind_eq_bind,
    Option.some_bind, Option.pure_def]
  norm_num

theorem parse_make_slot_lt {a b : Int} (ha : 0 ≤ a) (hab : a < b) :
    parse_slot (make_slot a b) = some (a, b) := by
  rw [parse_make_slot ha (by omega), if_neg (by omega)]

theorem to_minutes_nonneg {t : PyStr} (hnd : '-' ∉ t) {v : Int}
    (h : to_minutes t = some v) : 0 ≤ v := by
  unfold to_minutes at h
  cases hsp : pySplit ':' (pyStrip t) with
  | nil => rw [hsp] at h; exact absurd h (by simp)
  | cons p ps =>
    cases ps with
    | nil => rw [hsp] at h; exact absurd h (by simp)
    | cons q qs =>
      cases qs with
      | cons _ _ => rw [hsp] at h; exact absurd h (by simp)
      | nil =>
        rw [hsp] at h
        dsimp only at h
        have hp : '-' ∉ p := fun hc =>
          hnd (mem_of_mem_pyStrip (mem_of_mem_pySplit (hsp ▸ List.mem_cons_self p _) hc))
        have hq : '-' ∉ q := fun hc =>
          hnd (mem_of_mem_pyStrip
            (mem_of_mem_pySplit (hsp ▸ List.mem_cons_of_mem _ (List.mem_cons_self q _)) hc))
        cases hpv : pyInt p with
        | none => rw [hpv] at h; exact absurd h (by simp)
        | some hv =>
          cases hqv : pyInt q with
          | none => rw [hpv, hqv] at h; exact absurd h (by simp)
          | some mv =>
            rw [hpv, hqv] at h
            simp only [Option.bind_eq_bind, Option.some_bind, Option.pure_def,
              Option.some.injEq] at h
            have h1 := pyInt_nonneg hp hpv
            have h2 := pyInt_nonneg hq hqv
            omega

theorem parse_slot_facts {s : PyStr} {p : Int × Int} (h : parse_slot s = some p) :
    0 ≤ p.1 ∧ 0 ≤ p.2 ∧ (p.1 < 1440 → p.1 < p.2) := by
  unfold parse_slot at h
  cases hsp : pySplit '-' s with
  | nil => rw [hsp] at h; exact absurd h (by simp)
  | cons a as =>
    cases as with
    | nil => rw [hsp] at h; exact absurd h (by simp)
    | cons b bs =>
      cases bs with
      | cons _ _ => rw [hsp] at h; exact absurd h (by simp)
      | nil =>
        rw [hsp] at h
        dsimp only at h
        have hna : '-' ∉ a := sep_not_mem_pySplit (hsp ▸ List.mem_cons_self a _)
        have hnb : '-' ∉ b := sep_not_mem_pySplit
          (hsp ▸ List.mem_cons_of_mem _ (List.mem_cons_self b _))
        cases hav : to_minutes a with
        | none => rw [hav] at h; exact absurd h (by simp)
        | some sv =>
          cases hbv : to_minutes b with
          | none => rw [hav, hbv] at h; exact absurd h (by simp)
          | some ev =>
            rw [hav, hbv] at h
            simp only [Option.bind_eq_bind, Option.some_bind, Option.pure_def,
              Option.some.injEq] at h
            have h1 := to_minutes_nonneg hna hav
            have h2 := to_minutes_nonneg hnb hbv
            subst h
            constructor
            · exact h1
            constructor
            · dsimp only
              split <;> omega
            · intro hlt
              dsimp only
              split <;> omega

/-! ### Window-calculator lemmas -/

theorem mem_removeBlocked {b : Int × Int} :
    ∀ {free : List (Int × Int)} {w : Int × Int}, w ∈ removeBlocked b free →
      ∃ w0 ∈ free, w0.1 ≤ w.1 ∧ w.2 ≤ w0.2 ∧ ¬(w.1 < b.2 ∧ b.1 < w.2) ∧
        (w = w0 ∨ w.1 < w.2) := by
  intro free
  induction free with
  | nil => intro w hw; simp [removeBlocked] at hw
  | cons f rest ih =>
    intro w hw
    obtain ⟨fs, fe⟩ := f
    simp only [removeBlocked] at hw
    by_cases hno : b.2 ≤ fs ∨ b.1 ≥ fe
    · rw [if_pos hno] at hw
      rcases List.mem_cons.1 hw with rfl | hw
      · exact ⟨(fs, fe), by simp, le_refl _, le_refl _, by dsimp only; omega, Or.inl rfl⟩
      · obtain ⟨w0, h0, hrest⟩ := ih hw
        exact ⟨w0, List.mem_cons_of_mem _ h0, hrest⟩
    · rw [if_neg hno] at hw
      push_neg at hno
      rcases List.mem_append.1 hw with hw | hw
      · rcases List.mem_append.1 hw with hw | hw
        · by_cases hl : fs < b.1
          · rw [if_pos hl] at hw
            rw [List.mem_singleton] at hw
            subst hw
            exact ⟨(fs, fe), by simp, le_refl _, by dsimp only; omega, by dsimp only; omega,
              Or.inr hl⟩
          · rw [if_neg hl] at hw; simp at hw
        · by_cases hr : b.2 < fe
          · rw [if_pos hr] at hw
            rw [List.mem_singleton] at hw
            subst hw
            exact ⟨(fs, fe), by simp, by dsimp only; omega, le_refl _, by dsimp only; omega,
              Or.inr hr⟩
          · rw [if_neg hr] at hw; simp at hw
      · obtain ⟨w0, h0, hrest⟩ := ih hw
        exact ⟨w0, List.mem_cons_of_mem _ h0, hrest⟩

theorem mem_subtract_foldl {w : Int × Int} :
    ∀ {bl : List (Int × Int)} {free : List (Int × Int)},
      w ∈ bl.foldl (fun f b => removeBlocked b f) free →
      ∃ w0 ∈ free, w0.1 ≤ w.1 ∧ w.2 ≤ w0.2 ∧
        (∀ b ∈ bl, ¬(w.1 < b.2 ∧ b.1 < w.2)) ∧ (w = w0 ∨ w.1 < w.2) := by
  intro bl
  induction bl with
  | nil =>
    intro free hw
    exact ⟨w, hw, le_refl _, le_refl _, by simp, Or.inl rfl⟩
  | cons b bs ih =>
    intro free hw
    rw [List.foldl_cons] at hw
    obtain ⟨w1, h1, hs1, he1, hdisj, hpos⟩ := ih hw
    obtain ⟨w0, h0, hs0, he0, hdisjb, hpos0⟩ := mem_removeBlocked h1
    refine ⟨w0, h0, le_trans hs0 hs1, le_trans he1 he0, ?_, ?_⟩
    · intro c hc
      rcases List.mem_cons.1 hc with rfl | hc
      · intro hcon
        exact hdisjb ⟨by omega, by omega⟩
      · exact hdisj c hc
    · rcases hpos with rfl | hpos
      · exact hpos0
      · exact Or.inr hpos

theorem mem_subtract_intervals {s e : Int} {bl : List (Int × Int)} {w : Int × Int}
    (hw : w ∈ subtract_intervals s e bl) :
    s ≤ w.1 ∧ w.2 ≤ e ∧ (∀ b ∈ bl, ¬(w.1 < b.2 ∧ b.1 < w.2)) ∧
      (w = (s, e) ∨ w.1 < w.2) := by
  obtain ⟨w0, h0, hs, he, hdisj, hpos⟩ := mem_subtract_foldl hw
  rw [List.mem_singleton] at h0
  subst h0
  exact ⟨hs, he, hdisj, hpos⟩

theorem removeBlocked_noop {b : Int × Int} :
    ∀ {free : List (Int × Int)}, (∀ w ∈ free, b.2 ≤ w.1 ∨ b.1 ≥ w.2) →
      removeBlocked b free = free := by
  intro free
  induction free with
  | nil => intro _; rfl
  | cons f rest ih =>
    intro h
    obtain ⟨fs, fe⟩ := f
    simp only [removeBlocked]
    rw [if_pos (h (fs, fe) (by simp)), ih (fun w hw => h w (List.mem_cons_of_mem _ hw))]

theorem subtract_intervals_noop {s e : Int} {bl : List (Int × Int)}
    (h : ∀ b ∈ bl, b.2 ≤ s ∨ b.1 ≥ e) : subtract_intervals s e bl = [(s, e)] := by
  unfold subtract_intervals
  induction bl with
  | nil => rfl
  | cons b bs ih =>
    rw [List.foldl_cons, removeBlocked_noop (by
      intro w hw
      rw [List.mem_singleton] at hw
      subst hw
      exact h b (by simp))]
    exact ih (fun c hc => h c (List.mem_cons_of_mem _ hc))

/-! ### Claim C8 -/

/-- C8 counterexample: `"100:00-00:00"` parses successfully to `(6000, 1440)`
(1440 was added once to the end), yet its parsed end is not greater than its
parsed start — so "every parsed interval satisfies end > start" is false. -/
theorem claim_C8_cex :
    parse_slot "100:00-00:00".data = some (6000, 1440) ∧ ¬((6000 : Int) < 1440) :=
  ⟨by decide, by decide⟩

/-- C8 (amended): `"22:00-02:00"` parses to `(1320, 1560)`, a 240-minute
interval with internal end ≥ 1440; parsing a two-piece slot adds 1440 to the
end exactly when raw end ≤ start; and the resulting interval satisfies
end > start provided the parsed start is below 1440 (hours 0–23) — not for
arbitrary hour values. -/
theorem claim_C8 :
    (parse_slot "22:00-02:00".data = some (1320, 1560) ∧ (1560 : Int) - 1320 = 240 ∧
      (1440 : Int) ≤ 1560) ∧
    (∀ (slot a b : PyStr) (s e : Int), pySplit '-' slot = [a, b] →
      to_minutes a = some s → to_minutes b = some e →
      parse_slot slot = some (s, if e ≤ s then e + 1440 else e)) ∧
    (∀ (slot : PyStr) (s e : Int), parse_slot slot = some (s, e) → s < 1440 → s < e) := by
  refine ⟨⟨by decide, by decide, by decide⟩, ?_, ?_⟩
  · intro slot a b s e hsplit ha hb
    unfold parse_slot
    rw [hsplit]
    dsimp only
    rw [ha, hb]
    simp only [Option.bind_eq_bind, Option.some_bind, Option.pure_def, Option.some.injEq]
    norm_num
  · intro slot s e h hlt
    exact (parse_slot_facts h).2.2 hlt

/-- Witness for C8: the amended generalities applied to `"22:00-02:00"`. -/
theorem claim_C8_witness :
    (parse_slot "22:00-02:00".data = some (1320, 1560) ∧ (1320 : Int) < 1440) ∧
      (1320 : Int) < 1560 :=
  ⟨⟨by decide, by decide⟩, claim_C8.2.2 "22:00-02:00".data 1320 1560 (by decide) (by decide)⟩

/-! ### Claim C5 -/

/-- C5: in `_resolve_residual_overlaps`, an incoming non-`[CLASS]` entry that
overlaps the previously kept entry (`t_start < prev_end`) has its start pushed
to the previous entry's end with duration recomputed, and is dropped silently
when that duration is non-positive; in particular `[10:00,11:00)` followed by
`[10:30,11:30)` resolves to `[10:00,11:00)` then `[11:00,11:30)`. -/
theorem claim_C5 :
    (∀ (prev task : ScheduledTask) (ps pe ts te : Int),
      parse_slot prev.time_slot = some (ps, pe) →
      parse_slot task.time_slot = some (ts, te) →
      isClassTask task = false →
      ts < pe →
      resolve_residual_overlaps [prev, task] =
        some (if 0 < te - pe then
          [prev, { time_slot := make_slot pe te, task_name := task.task_name,
                   is_attendance_safe := task.is_attendance_safe,
                   estimated_minutes := te - pe }]
        else [prev])) ∧
    resolve_residual_overlaps
        [⟨"10:00-11:00".data, "Deep work".data, true, 60⟩,
         ⟨"10:30-11:30".data, "Reading".data, true, 60⟩] =
      some [⟨"10:00-11:00".data, "Deep work".data, true, 60⟩,
        ⟨"11:00-11:30".data, "Reading".data, true, 30⟩] := by
  constructor
  · intro prev task ps pe ts te h1 h2 hcl hov
    unfold resolve_residual_overlaps resolveLoop
    rw [h1, h2]
    simp only [Option.bind_eq_bind, Option.some_bind]
    rw [if_neg (by dsimp only; omega : ¬((ts, te).1 ≥ (ps, pe).2))]
    rw [if_neg (by rw [hcl]; exact Bool.false_ne_true)]
    by_cases hd : 0 < te - pe
    · rw [if_pos hd, if_pos hd]
      rfl
    · rw [if_neg hd, if_neg hd]
      rfl
  · decide

/-- Witness for C5: the push rule applied to the concrete pair of proposals. -/
theorem claim_C5_witness :
    (parse_slot "10:00-11:00".data = some (600, 660) ∧
      parse_slot "10:30-11:30".data = some (630, 690) ∧
      isClassTask ⟨"10:30-11:30".data, "Reading".data, true, 60⟩ = false ∧
      (630 : Int) < 660) ∧
    resolve_residual_overlaps
        [⟨"10:00-11:00".data, "Deep work".data, true, 60⟩,
         ⟨"10:30-11:30".data, "Reading".data, true, 60⟩] =
      some [⟨"10:00-11:00".data, "Deep work".data, true, 60⟩,
        ⟨"11:00-11:30".data, "Reading".data, true, 30⟩] := by
  refine ⟨⟨by decide, by decide, by decide, by decide⟩, ?_⟩
  have h := claim_C5.1 ⟨"10:00-11:00".data, "Deep work".data, true, 60⟩
    ⟨"10:30-11:30".data, "Reading".data, true, 60⟩ 600 660 630 690
    (by decide) (by decide) (by decide) (by decide)
  rw [h]
  decide

/-! ### Claim C6: window calculator is blocker-order independent -/

theorem removeBlocked_append (b : Int × Int) (xs ys : List (Int × Int)) :
    removeBlocked b (xs ++ ys) = removeBlocked b xs ++ removeBlocked b ys := by
  induction xs with
  | nil => rfl
  | cons f rest ih =>
    obtain ⟨fs, fe⟩ := f
    simp only [List.cons_append, removeBlocked, ih]
    split_ifs <;> simp [ih]

theorem removeBlocked_single (b : Int × Int) (fs fe : Int) :
    removeBlocked b [(fs, fe)] =
      if b.2 ≤ fs ∨ b.1 ≥ fe then [(fs, fe)]
      else (if fs < b.1 then [(fs, b.1)] else []) ++
        (if b.2 < fe then [(b.2, fe)] else []) := by
  simp only [removeBlocked]
  split_ifs <;> simp

theorem removeBlocked_cons (x w : Int × Int) (l : List (Int × Int)) :
    removeBlocked x (w :: l) = removeBlocked x [w] ++ removeBlocked x l := by
  obtain ⟨fs, fe⟩ := w
  simp only [removeBlocked]
  split_ifs <;> simp

theorem removeBlocked_single_comm {b c : Int × Int} (hb : b.1 < b.2) (hc : c.1 < c.2)
    (fs fe : Int) :
    removeBlocked b (removeBlocked c [(fs, fe)]) =
      removeBlocked c (removeBlocked b [(fs, fe)]) := by
  obtain ⟨b1, b2⟩ := b
  obtain ⟨c1, c2⟩ := c
  simp only at hb hc
  rw [removeBlocked_single, removeBlocked_single]
  split_ifs <;>
    simp only [removeBlocked_append, removeBlocked_single, removeBlocked, List.append_nil,
      List.nil_append] <;>
    split_ifs <;>
    first
      | rfl
      | omega
      | (simp only [List.cons_append, List.nil_append, List.append_nil,
          List.singleton_append, List.cons.injEq, Prod.mk.injEq, and_true, true_and,
          eq_self_iff_true, List.nil_eq, reduceCtorEq] <;> omega)

theorem removeBlocked_comm {b c : Int × Int} (hb : b.1 < b.2) (hc : c.1 < c.2) :
    ∀ free : List (Int × Int),
      removeBlocked b (removeBlocked c free) = removeBlocked c (removeBlocked b free) := by
  intro free
  induction free with
  | nil => rfl
  | cons w rest ih =>
    obtain ⟨fs, fe⟩ := w
    rw [removeBlocked_cons c (fs, fe) rest, removeBlocked_append,
      removeBlocked_cons b (fs, fe) rest, removeBlocked_append, ih,
      removeBlocked_single_comm hb hc]

theorem foldl_removeBlocked_perm {bl bl' : List (Int × Int)} (hp : bl.Perm bl') :
    (∀ x ∈ bl, x.1 < x.2) →
      ∀ init : List (Int × Int),
        bl.foldl (fun f b => removeBlocked b f) init =
          bl'.foldl (fun f b => removeBlocked b f) init := by
  induction hp with
  | nil => intro _ init; rfl
  | cons x p ih =>
    intro hpos init
    simp only [List.foldl_cons]
    exact ih (fun y hy => hpos y (List.mem_cons_of_mem _ hy)) _
  | swap x y l =>
    intro hpos init
    simp only [List.foldl_cons]
    rw [removeBlocked_comm (hpos x (by simp)) (hpos y (by simp)) init]
  | trans p1 p2 ih1 ih2 =>
    intro hpos init
    rw [ih1 hpos init, ih2 (fun y hy => hpos y (p1.mem_iff.2 hy)) init]

/-- C6: the Window Calculator (`_subtract_intervals`) gives the same output
for every permutation of the blocker list (blockers being genuine intervals,
`start < end`, per the data model), a blocker wholly outside the span is a
no-op, and `[09:00,12:00)` minus `[09:00,10:00)` and `[11:00,11:30)` is
exactly `[10:00,11:00), [11:30,12:00)]` left-to-right. -/
theorem claim_C6 :
    (∀ (s e : Int) (blocked blocked' : List (Int × Int)),
      (∀ x ∈ blocked, x.1 < x.2) → blocked.Perm blocked' →
      subtract_intervals s e blocked = subtract_intervals s e blocked') ∧
    (∀ (s e : Int) (b : Int × Int) (blocked : List (Int × Int)),
      b.2 ≤ s ∨ b.1 ≥ e →
      subtract_intervals s e (b :: blocked) = subtract_intervals s e blocked) ∧
    subtract_intervals 540 720 [(540, 600), (660, 690)] = [(600, 660), (690, 720)] := by
  refine ⟨?_, ?_, by decide⟩
  · intro s e blocked blocked' hpos hperm
    unfold subtract_intervals
    exact foldl_removeBlocked_perm hperm hpos _
  · intro s e b blocked hout
    unfold subtract_intervals
    rw [List.foldl_cons, removeBlocked_noop]
    intro w hw
    rw [List.mem_singleton] at hw
    subst hw
    exact hout

/-- Witness for C6: order independence and the outside no-op on the concrete
`[09:00,12:00)` example. -/
theorem claim_C6_witness :
    ((∀ x ∈ [((540 : Int), (600 : Int)), (660, 690)], x.1 < x.2) ∧
      [((540 : Int), (600 : Int)), (660, 690)].Perm [(660, 690), (540, 600)] ∧
      ((480 : Int) ≤ 540 ∨ (1200 : Int) ≥ 720)) ∧
    subtract_intervals 540 720 [(540, 600), (660, 690)] =
        subtract_intervals 540 720 [(660, 690), (540, 600)] ∧
    subtract_intervals 540 720 [(420, 480), (540, 600), (660, 690)] =
        subtract_intervals 540 720 [(540, 600), (660, 690)] := by
  refine ⟨⟨by decide, ?_, by norm_num⟩, ?_, ?_⟩
  · exact List.Perm.swap ((660 : Int), (690 : Int)) (540, 600) []
  · exact claim_C6.1 540 720 _ _ (by decide)
      (List.Perm.swap ((660 : Int), (690 : Int)) (540, 600) [])
  · exact claim_C6.2.1 540 720 (420, 480) [(540, 600), (660, 690)] (by norm_num)

/-! ### Claim C7 -/

/-- C7 counterexample: the proposal `"9:00-10:00"` (estimated 60) overlaps no
anchor, and yields exactly one entry — but that entry is not identical to the
original proposal: its slot has been re-rendered as `"09:00-10:00"`. -/
theorem claim_C7_cex :
    fitTask [] ⟨"9:00-10:00".data, "Review notes".data, true, 60⟩ =
      [⟨"09:00-10:00".data, "Review notes".data, true, 60⟩] ∧
    fitTask [] ⟨"9:00-10:00".data, "Review notes".data, true, 60⟩ ≠
      [⟨"9:00-10:00".data, "Review notes".data, true, 60⟩] :=
  ⟨by decide, by decide⟩

/-- C7 (amended): a proposal whose parsed interval is fully covered by the
anchor intervals yields zero entries; a proposal overlapping no anchor yields
exactly one entry with the proposal's name and flag, the canonical rendering
of its parsed interval as its slot, and duration recomputed as the interval
width — identical to the original only when the original was already in that
canonical form. -/
theorem claim_C7 :
    (∀ (fixed : List (Int × Int)) (task : ScheduledTask) (ts te : Int),
      parse_slot task.time_slot = some (ts, te) →
      (∀ x : Int, ts ≤ x → x < te → ∃ b ∈ fixed, b.1 ≤ x ∧ x < b.2) →
      fitTask fixed task = []) ∧
    (∀ (fixed : List (Int × Int)) (task : ScheduledTask) (ts te : Int),
      parse_slot task.time_slot = some (ts, te) → ts < te →
      (∀ b ∈ fixed, ¬(ts < b.2 ∧ b.1 < te)) →
      fitTask fixed task =
        [{ time_slot := make_slot ts te, task_name := task.task_name,
           is_attendance_safe := task.is_attendance_safe,
           estimated_minutes := te - ts }]) := by
  constructor
  · intro fixed task ts te hparse hcov
    unfold fitTask
    rw [hparse]
    dsimp only
    rw [List.filterMap_eq_nil_iff]
    intro w hw
    obtain ⟨hs, he, hdisj, hpos⟩ := mem_subtract_intervals hw
    by_cases hwid : w.2 - w.1 ≤ 0
    · rw [if_pos hwid]
    · exfalso
      have hww : w.1 < w.2 := by omega
      obtain ⟨b, hb, hb1, hb2⟩ := hcov w.1 hs (by omega)
      exact hdisj b hb ⟨by omega, by omega⟩
  · intro fixed task ts te hparse hlt hdisj
    unfold fitTask
    rw [hparse]
    dsimp only
    rw [subtract_intervals_noop (fun b hb => by have := hdisj b hb; omega)]
    simp only [List.filterMap_cons, List.filterMap_nil]
    rw [if_neg (by omega : ¬((ts, te).2 - (ts, te).1 ≤ 0))]

/-- Witness for C7: `[09:10,09:40)` fully inside anchor `[09:00,10:00)`
yields nothing; a canonical anchor-free proposal yields exactly itself. -/
theorem claim_C7_witness :
    (parse_slot "09:10-09:40".data = some (550, 580) ∧
      parse_slot "09:00-10:00".data = some (540, 600) ∧ (540 : Int) < 600) ∧
    fitTask [(540, 600)] ⟨"09:10-09:40".data, "T".data, true, 30⟩ = [] ∧
    fitTask [] ⟨"09:00-10:00".data, "T".data, true, 60⟩ =
      [⟨"09:00-10:00".data, "T".data, true, 60⟩] := by
  refine ⟨⟨by decide, by decide, by decide⟩, ?_, ?_⟩
  · exact claim_C7.1 [(540, 600)] ⟨"09:10-09:40".data, "T".data, true, 30⟩ 550 580
      (by decide) (fun x h1 h2 => ⟨(540, 600), by simp, by omega, by omega⟩)
  · have h := claim_C7.2 [] ⟨"09:00-10:00".data, "T".data, true, 60⟩ 540 600
      (by decide) (by decide) (by simp)
    rw [h]
    decide

/-! ### Claim C4: anchor extractor -/

theorem overlaps_symm (s1 e1 s2 e2 : Int) : overlaps s1 e1 s2 e2 = overlaps s2 e2 s1 e1 := by
  simp only [overlaps]
  rw [Bool.and_comm]

theorem parseCandidates_dup {e : TimetableEntry} :
    ∀ (T1 T2 : List TimetableEntry) (seen : List (PyStr × PyStr × PyStr)),
      (entryKey e ∈ seen ∨
        ∃ e' ∈ T1, pyStrip e'.start_time ≠ [] ∧ pyStrip e'.end_time ≠ [] ∧
          entryKey e' = entryKey e) →
      parseCandidates (T1 ++ e :: T2) seen = parseCandidates (T1 ++ T2) seen := by
  intro T1
  induction T1 with
  | nil =>
    intro T2 seen hk
    rcases hk with hk | ⟨e', he', _⟩
    · show parseCandidates (e :: T2) seen = parseCandidates T2 seen
      by_cases hempty : pyStrip e.start_time = [] ∨ pyStrip e.end_time = []
      · rw [parseCandidates, if_pos hempty]
      · rw [parseCandidates, if_neg hempty, if_pos (by exact hk)]
    · simp at he'
  | cons f T1 ih =>
    intro T2 seen hk
    show parseCandidates (f :: (T1 ++ e :: T2)) seen = parseCandidates (f :: (T1 ++ T2)) seen
    unfold parseCandidates
    by_cases hempty : pyStrip f.start_time = [] ∨ pyStrip f.end_time = []
    · rw [if_pos hempty, if_pos hempty]
      refine ih T2 seen ?_
      rcases hk with hk | ⟨e', he', hne1, hne2, hke⟩
      · exact Or.inl hk
      · rcases List.mem_cons.1 he' with rfl | he'
        · exact absurd hempty (by tauto)
        · exact Or.inr ⟨e', he', hne1, hne2, hke⟩
    · rw [if_neg hempty, if_neg hempty]
      by_cases hdup : (pyStrip f.start_time, pyStrip f.end_time, f.subject) ∈ seen
      · rw [if_pos hdup, if_pos hdup]
        refine ih T2 seen ?_
        rcases hk with hk | ⟨e', he', hne1, hne2, hke⟩
        · exact Or.inl hk
        · rcases List.mem_cons.1 he' with rfl | he'
          · exact Or.inl (by rw [← hke]; exact hdup)
          · exact Or.inr ⟨e', he', hne1, hne2, hke⟩
      · rw [if_neg hdup, if_neg hdup]
        have hrec := ih T2 ((pyStrip f.start_time, pyStrip f.end_time, f.subject) :: seen) ?_
        · rw [hrec]
        · rcases hk with hk | ⟨e', he', hne1, hne2, hke⟩
          · exact Or.inl (List.mem_cons_of_mem _ hk)
          · rcases List.mem_cons.1 he' with rfl | he'
            · refine Or.inl ?_
              rw [← hke]
              exact List.mem_cons_self _ _
            · exact Or.inr ⟨e', he', hne1, hne2, hke⟩

theorem assignClasses_spec :
    ∀ (cs : List Candidate) (acc : List (Int × Int)),
      ∃ sel : List Candidate, sel.Sublist cs ∧
        (assignClasses cs acc).1 = sel.map mkClassTask ∧
        (assignClasses cs acc).2 = acc ++ sel.map (fun c => (c.start_m, c.end_m)) := by
  intro cs
  induction cs with
  | nil => intro acc; exact ⟨[], List.Sublist.refl _, rfl, by simp [assignClasses]⟩
  | cons c rest ih =>
    intro acc
    by_cases hov : acc.any (fun p => overlaps c.start_m c.end_m p.1 p.2)
    · obtain ⟨sel, hsub, h1, h2⟩ := ih acc
      refine ⟨sel, hsub.cons c, ?_, ?_⟩
      · simp [assignClasses, hov, h1]
      · simp [assignClasses, hov, h2]
    · obtain ⟨sel, hsub, h1, h2⟩ := ih (acc ++ [(c.start_m, c.end_m)])
      refine ⟨c :: sel, hsub.cons₂ c, ?_, ?_⟩
      · simp [assignClasses, hov, h1]
      · simp [assignClasses, hov, h2]

theorem assignClasses_disjoint :
    ∀ (cs : List Candidate) (acc : List (Int × Int)),
      List.Pairwise (fun a b => overlaps a.1 a.2 b.1 b.2 = false) acc →
      List.Pairwise (fun a b => overlaps a.1 a.2 b.1 b.2 = false) (assignClasses cs acc).2 := by
  intro cs
  induction cs with
  | nil => intro acc h; exact h
  | cons c rest ih =>
    intro acc h
    by_cases hov : acc.any (fun p => overlaps c.start_m c.end_m p.1 p.2)
    · simpa [assignClasses, hov] using ih acc h
    · have hall : ∀ p ∈ acc, overlaps c.start_m c.end_m p.1 p.2 = false := by
        intro p hp
        have h' : ¬(acc.any (fun p => overlaps c.start_m c.end_m p.1 p.2) = true) := hov
        rw [List.any_eq_true] at h'
        push_neg at h'
        simpa using h' p hp
      have hacc' : List.Pairwise (fun a b => overlaps a.1 a.2 b.1 b.2 = false)
          (acc ++ [(c.start_m, c.end_m)]) := by
        rw [List.pairwise_append]
        refine ⟨h, by simp, ?_⟩
        intro a ha b hb
        rw [List.mem_singleton] at hb
        subst hb
        rw [overlaps_symm]
        exact hall a ha
      simpa [assignClasses, hov] using ih (acc ++ [(c.start_m, c.end_m)]) hacc'

/-- C4: the anchor-extraction step drops an exact `(start, end, subject)`
duplicate of an earlier kept record; candidates are sorted by start
ascending; greedy acceptance produces pairwise non-overlapping accepted
intervals, listed in ascending-start order; and the emitted `[CLASS]` tasks
are exactly the accepted sub-sequence of candidates (later overlapping
candidates are silently discarded). -/
theorem claim_C4 :
    (∀ (T1 : List TimetableEntry) (e : TimetableEntry) (T2 : List TimetableEntry),
      (∃ e' ∈ T1, pyStrip e'.start_time ≠ [] ∧ pyStrip e'.end_time ≠ [] ∧
        entryKey e' = entryKey e) →
      parseCandidates (T1 ++ e :: T2) [] = parseCandidates (T1 ++ T2) []) ∧
    (∀ cs : List Candidate, (sortCandidates cs).Perm cs ∧
      List.Pairwise candLE (sortCandidates cs)) ∧
    (∀ cs : List Candidate,
      List.Pairwise (fun a b => overlaps a.1 a.2 b.1 b.2 = false)
        (assignClasses (sortCandidates cs) []).2) ∧
    (∀ cs : List Candidate,
      List.Pairwise (fun a b : Int × Int => a.1 ≤ b.1)
        (assignClasses (sortCandidates cs) []).2) ∧
    (∀ (cs : List Candidate) (acc : List (Int × Int)),
      ∃ sel : List Candidate, sel.Sublist cs ∧
        (assignClasses cs acc).1 = sel.map mkClassTask ∧
        (assignClasses cs acc).2 = acc ++ sel.map (fun c => (c.start_m, c.end_m))) := by
  refine ⟨?_, ?_, ?_, ?_, assignClasses_spec⟩
  · intro T1 e T2 hdup
    exact parseCandidates_dup T1 T2 [] (Or.inr hdup)
  · intro cs
    exact ⟨List.perm_insertionSort candLE cs, List.sorted_insertionSort candLE cs⟩
  · intro cs
    exact assignClasses_disjoint (sortCandidates cs) [] (by simp)
  · intro cs
    obtain ⟨sel, hsub, _, h2⟩ := assignClasses_spec (sortCandidates cs) []
    rw [h2, List.nil_append, List.pairwise_map]
    exact (List.sorted_insertionSort candLE cs).sublist hsub

/-- Witness for C4: a second, identical timetable record is dropped. -/
theorem claim_C4_witness :
    (pyStrip "09:00".data ≠ [] ∧ pyStrip "10:00".data ≠ [] ∧
      entryKey ⟨"09:00".data, "10:00".data, "Math".data, true⟩ =
        entryKey ⟨"09:00".data, "10:00".data, "Math".data, true⟩) ∧
    parseCandidates [⟨"09:00".data, "10:00".data, "Math".data, true⟩,
        ⟨"09:00".data, "10:00".data, "Math".data, true⟩] [] =
      parseCandidates [⟨"09:00".data, "10:00".data, "Math".data, true⟩] [] := by
  refine ⟨⟨by decide, by decide, rfl⟩, ?_⟩
  exact claim_C4.1 [⟨"09:00".data, "10:00".data, "Math".data, true⟩]
    ⟨"09:00".data, "10:00".data, "Math".data, true⟩ []
    ⟨⟨"09:00".data, "10:00".data, "Math".data, true⟩, by simp, by decide, by decide, rfl⟩

/-! ### Sorting and parsing pipeline lemmas -/

theorem keyTasks_total {l : List ScheduledTask} (h : ∀ t ∈ l, parses t) :
    keyTasks l = some (l.map (fun t => (pstart t, t))) := by
  induction l with
  | nil => rfl
  | cons t ts ih =>
    unfold keyTasks
    rw [parse_slot_eq_of_parses (h t (by simp)), ih (fun u hu => h u (by simp [hu]))]
    rfl

theorem keyTasks_some {l : List ScheduledTask} {ks : List (Int × ScheduledTask)}
    (h : keyTasks l = some ks) :
    ks = l.map (fun t => (pstart t, t)) ∧ ∀ t ∈ l, parses t := by
  induction l generalizing ks with
  | nil =>
    simp only [keyTasks, Option.some.injEq] at h
    subst h
    exact ⟨rfl, by simp⟩
  | cons t ts ih =>
    unfold keyTasks at h
    cases hp : parse_slot t.time_slot with
    | none => rw [hp] at h; exact absurd h (by simp)
    | some p =>
      rw [hp] at h
      cases hk : keyTasks ts with
      | none => rw [hk] at h; exact absurd h (by simp)
      | some rest =>
        rw [hk] at h
        simp only [Option.bind_eq_bind, Option.some_bind, Option.pure_def,
          Option.some.injEq] at h
        obtain ⟨hrest, hall⟩ := ih hk
        obtain ⟨hpar, hps, _⟩ := parses_of_eq hp
        subst h
        constructor
        · rw [List.map_cons, ← hrest, hps]
        · intro u hu
          rcases List.mem_cons.1 hu with rfl | hu
          · exact hpar
          · exact hall u hu

theorem sortTasksByStart_some {l l' : List ScheduledTask}
    (h : sortTasksByStart l = some l') :
    l'.Perm l ∧ List.Pairwise (fun a b => pstart a ≤ pstart b) l' ∧ ∀ t ∈ l, parses t := by
  unfold sortTasksByStart at h
  cases hk : keyTasks l with
  | none => rw [hk] at h; exact absurd h (by simp)
  | some ks =>
    rw [hk] at h
    simp only [Option.map_some', Option.some.injEq] at h
    obtain ⟨hks, hall⟩ := keyTasks_some hk
    subst h
    refine ⟨?_, ?_, hall⟩
    · have h1 : ((List.insertionSort taskLE ks).map (fun x => x.2)).Perm
          (ks.map (fun x => x.2)) := (List.perm_insertionSort taskLE ks).map _
      have h2 : ks.map (fun x => x.2) = l := by
        rw [hks, List.map_map]
        simp [Function.comp_def]
      rw [h2] at h1
      exact h1
    · have hs := List.sorted_insertionSort taskLE ks
      have hmem : ∀ x ∈ List.insertionSort taskLE ks, x.1 = pstart x.2 := by
        intro x hx
        have hx' : x ∈ ks := (List.perm_insertionSort taskLE ks).subset hx
        rw [hks] at hx'
        obtain ⟨t, _, rfl⟩ := List.mem_map.1 hx'
        rfl
      rw [List.pairwise_map]
      refine List.Pairwise.imp_of_mem ?_ hs
      intro a b ha hb hr
      rw [← hmem _ ha, ← hmem _ hb]
      exact hr

theorem sortTasksByStart_total {l : List ScheduledTask} (h : ∀ t ∈ l, parses t) :
    ∃ l', sortTasksByStart l = some l' := by
  unfold sortTasksByStart
  rw [keyTasks_total h]
  exact ⟨_, rfl⟩

theorem parseAll_some {l : List ScheduledTask} {fs : List (Int × Int)}
    (h : parseAll l = some fs) :
    fs = l.map (fun t => (pstart t, pend t)) ∧ ∀ t ∈ l, parses t := by
  induction l generalizing fs with
  | nil =>
    simp only [parseAll, Option.some.injEq] at h
    subst h
    exact ⟨rfl, by simp⟩
  | cons t ts ih =>
    unfold parseAll at h
    cases hp : parse_slot t.time_slot with
    | none => rw [hp] at h; exact absurd h (by simp)
    | some p =>
      rw [hp] at h
      cases hk : parseAll ts with
      | none => rw [hk] at h; exact absurd h (by simp)
      | some rest =>
        rw [hk] at h
        simp only [Option.bind_eq_bind, Option.some_bind, Option.pure_def,
          Option.some.injEq] at h
        obtain ⟨hrest, hall⟩ := ih hk
        obtain ⟨hpar, hps, hpe⟩ := parses_of_eq hp
        subst h
        constructor
        · rw [List.map_cons, ← hrest, hps, hpe]
        · intro u hu
          rcases List.mem_cons.1 hu with rfl | hu
          · exact hpar
          · exact hall u hu

theorem parseAll_total {l : List ScheduledTask} (h : ∀ t ∈ l, parses t) :
    parseAll l = some (l.map (fun t => (pstart t, pend t))) := by
  induction l with
  | nil => rfl
  | cons t ts ih =>
    unfold parseAll
    rw [parse_slot_eq_of_parses (h t (by simp)), ih (fun u hu => h u (by simp [hu]))]
    rfl

theorem pstart_nonneg {t : ScheduledTask} (h : parses t) : 0 ≤ pstart t :=
  (parse_slot_facts (parse_slot_eq_of_parses h)).1

theorem pend_nonneg {t : ScheduledTask} (h : parses t) : 0 ≤ pend t :=
  (parse_slot_facts (parse_slot_eq_of_parses h)).2.1

theorem parses_mk_make_slot {a b : Int} (ha : 0 ≤ a) (hb : 0 ≤ b)
    (nm : PyStr) (fl : Bool) (est : Int) :
    parses { time_slot := make_slot a b, task_name := nm,
             is_attendance_safe := fl, estimated_minutes := est } := by
  unfold parses
  show (parse_slot (make_slot a b)).isSome
  rw [parse_make_slot ha hb]
  rfl

theorem resolveLoop_total :
    ∀ (rest : List ScheduledTask) (prev : ScheduledTask) (acc : List ScheduledTask),
      parses prev → (∀ t ∈ rest, parses t) →
      ∃ out, resolveLoop prev acc rest = some out := by
  intro rest
  induction rest with
  | nil => intro prev acc _ _; exact ⟨_, rfl⟩
  | cons task rest ih =>
    intro prev acc hprev hall
    have htask : parses task := hall task (by simp)
    have hrest : ∀ t ∈ rest, parses t := fun t ht => hall t (by simp [ht])
    unfold resolveLoop
    rw [parse_slot_eq_of_parses hprev, parse_slot_eq_of_parses htask]
    simp only [Option.bind_eq_bind, Option.some_bind]
    split_ifs
    · exact ih task (prev :: acc) htask hrest
    · exact ih task (prev :: acc) htask hrest
    · exact ih task _ htask hrest
    · exact ih task acc htask hrest
    · refine ih _ (prev :: acc) ?_ hrest
      exact parses_mk_make_slot (pend_nonneg hprev) (pend_nonneg htask) _ _ _
    · exact ih prev acc hprev hrest

theorem resolve_total {l : List ScheduledTask} (h : ∀ t ∈ l, parses t) :
    ∃ out, resolve_residual_overlaps l = some out := by
  cases l with
  | nil => exact ⟨[], rfl⟩
  | cons t rest =>
    exact resolveLoop_total rest t [] (h t (by simp)) (fun u hu => h u (by simp [hu]))

theorem fitTask_mem {fixed : List (Int × Int)} {task u : ScheduledTask}
    (hu : u ∈ fitTask fixed task) :
    ∃ ts te w1 w2, parse_slot task.time_slot = some (ts, te) ∧
      (w1, w2) ∈ subtract_intervals ts te fixed ∧ w1 < w2 ∧
      u = { time_slot := make_slot w1 w2, task_name := task.task_name,
            is_attendance_safe := task.is_attendance_safe,
            estimated_minutes := w2 - w1 } := by
  unfold fitTask at hu
  cases hp : parse_slot task.time_slot with
  | none => rw [hp] at hu; simp at hu
  | some p =>
    obtain ⟨ts, te⟩ := p
    rw [hp] at hu
    dsimp only at hu
    obtain ⟨w, hw, hfw⟩ := List.mem_filterMap.1 hu
    by_cases hwid : w.2 - w.1 ≤ 0
    · rw [if_pos hwid] at hfw; exact absurd hfw (by simp)
    · rw [if_neg hwid] at hfw
      simp only [Option.some.injEq] at hfw
      exact ⟨ts, te, w.1, w.2, rfl, by simpa using hw, by omega, hfw.symm⟩

theorem fitTask_good {fixed : List (Int × Int)} {task u : ScheduledTask}
    (hu : u ∈ fitTask fixed task) :
    parses u ∧ 0 ≤ pstart u ∧ pstart u < pend u ∧
      u.estimated_minutes = pend u - pstart u ∧
      u.time_slot = make_slot (pstart u) (pend u) ∧
      u.task_name = task.task_name ∧
      (∀ b ∈ fixed, ¬(pstart u < b.2 ∧ b.1 < pend u)) := by
  obtain ⟨ts, te, w1, w2, hp, hw, hlt, rfl⟩ := fitTask_mem hu
  obtain ⟨hs, he, hdisj, _⟩ := mem_subtract_intervals hw
  have h0 := parse_slot_facts hp
  have hw1 : (0 : Int) ≤ w1 := by omega
  have hparse : parse_slot (ScheduledTask.mk (make_slot w1 w2) task.task_name
      task.is_attendance_safe (w2 - w1)).time_slot = some (w1, w2) :=
    parse_make_slot_lt hw1 hlt
  obtain ⟨hpar, hps, hpe⟩ := parses_of_eq hparse
  dsimp only at hps hpe
  refine ⟨hpar, ?_, ?_, ?_, ?_, rfl, ?_⟩
  · rw [hps]; exact hw1
  · rw [hps, hpe]; exact hlt
  · rw [hps, hpe]
  · rw [hps, hpe]
  · intro b hb
    rw [hps, hpe]
    exact hdisj b hb

theorem build_some_elim {L : List ScheduledTask} {T : List TimetableEntry}
    {out : List ScheduledTask} (h : build_collision_free_schedule L T = some out) :
    ∃ cs class_tasks fixed merged,
      parseCandidates T [] = some cs ∧
      sortTasksByStart (assignClasses (sortCandidates cs) []).1 = some class_tasks ∧
      parseAll class_tasks = some fixed ∧
      sortTasksByStart (class_tasks ++
        (L.filter (fun t => !isClassTask t)).flatMap (fitTask fixed)) = some merged ∧
      resolve_residual_overlaps merged = some out := by
  unfold build_collision_free_schedule at h
  cases hc : parseCandidates T [] with
  | none => rw [hc] at h; exact absurd h (by simp)
  | some cs =>
    rw [hc] at h
    simp only [Option.bind_eq_bind, Option.some_bind] at h
    cases hct : sortTasksByStart (assignClasses (sortCandidates cs) []).1 with
    | none => rw [hct] at h; exact absurd h (by simp)
    | some class_tasks =>
      rw [hct] at h
      simp only [Option.some_bind] at h
      cases hfx : parseAll class_tasks with
      | none => rw [hfx] at h; exact absurd h (by simp)
      | some fixed =>
        rw [hfx] at h
        simp only [Option.some_bind] at h
        cases hm : sortTasksByStart (class_tasks ++
            (L.filter (fun t => !isClassTask t)).flatMap (fitTask fixed)) with
        | none => rw [hm] at h; exact absurd h (by simp)
        | some merged =>
          rw [hm] at h
          simp only [Option.some_bind] at h
          exact ⟨cs, class_tasks, fixed, merged, rfl, hct, hfx, hm, h⟩

theorem build_some_intro {L : List ScheduledTask} {T : List TimetableEntry}
    {cs : List Candidate} {class_tasks : List ScheduledTask} {fixed : List (Int × Int)}
    {merged out : List ScheduledTask}
    (hc : parseCandidates T [] = some cs)
    (hct : sortTasksByStart (assignClasses (sortCandidates cs) []).1 = some class_tasks)
    (hfx : parseAll class_tasks = some fixed)
    (hm : sortTasksByStart (class_tasks ++
      (L.filter (fun t => !isClassTask t)).flatMap (fitTask fixed)) = some merged)
    (hr : resolve_residual_overlaps merged = some out) :
    build_collision_free_schedule L T = some out := by
  unfold build_collision_free_schedule
  rw [hc]
  simp only [Option.bind_eq_bind, Option.some_bind]
  rw [hct]
  simp only [Option.some_bind]
  rw [hfx]
  simp only [Option.some_bind]
  rw [hm]
  simp only [Option.some_bind]
  exact hr

/-! ### Claim C9 -/

theorem build_congr_fitted {L L' : List ScheduledTask} (T : List TimetableEntry)
    (h : ∀ fixed : List (Int × Int),
      (L.filter (fun t => !isClassTask t)).flatMap (fitTask fixed) =
        (L'.filter (fun t => !isClassTask t)).flatMap (fitTask fixed)) :
    build_collision_free_schedule L T = build_collision_free_schedule L' T := by
  unfold build_collision_free_schedule
  cases parseCandidates T [] with
  | none => rfl
  | some cs =>
    simp only [Option.bind_eq_bind, Option.some_bind]
    cases sortTasksByStart (assignClasses (sortCandidates cs) []).1 with
    | none => rfl
    | some ct =>
      simp only [Option.some_bind]
      cases parseAll ct with
      | none => rfl
      | some fixed =>
        simp only [Option.some_bind]
        rw [h fixed]

theorem parseCandidates_skip {e : TimetableEntry}
    (hempty : pyStrip e.start_time = [] ∨ pyStrip e.end_time = []) :
    ∀ (T1 T2 : List TimetableEntry) (seen : List (PyStr × PyStr × PyStr)),
      parseCandidates (T1 ++ e :: T2) seen = parseCandidates (T1 ++ T2) seen := by
  intro T1
  induction T1 with
  | nil =>
    intro T2 seen
    show parseCandidates (e :: T2) seen = parseCandidates T2 seen
    rw [parseCandidates, if_pos hempty]
  | cons f T1 ih =>
    intro T2 seen
    show parseCandidates (f :: (T1 ++ e :: T2)) seen = parseCandidates (f :: (T1 ++ T2)) seen
    unfold parseCandidates
    by_cases hf : pyStrip f.start_time = [] ∨ pyStrip f.end_time = []
    · rw [if_pos hf, if_pos hf]
      exact ih T2 seen
    · rw [if_neg hf, if_neg hf]
      by_cases hdup : (pyStrip f.start_time, pyStrip f.end_time, f.subject) ∈ seen
      · rw [if_pos hdup, if_pos hdup]
        exact ih T2 seen
      · rw [if_neg hdup, if_neg hdup, ih T2 _]

theorem build_congr_timetable {L : List ScheduledTask} {T T' : List TimetableEntry}
    (h : parseCandidates T [] = parseCandidates T' []) :
    build_collision_free_schedule L T = build_collision_free_schedule L T' := by
  unfold build_collision_free_schedule
  rw [h]

/-- C9: the engine never raises on malformed flexible input — a proposal with
an unparsable `time_slot` is skipped silently wherever it occurs; a commitment
whose stripped start or end string is empty is skipped silently; and whenever
the timetable alone yields a plan, no flexible task list whatsoever can make
the engine raise: it returns a plan built from the remaining records. -/
theorem claim_C9 :
    (∀ (L1 L2 : List ScheduledTask) (t : ScheduledTask) (T : List TimetableEntry),
      parse_slot t.time_slot = none →
      build_collision_free_schedule (L1 ++ t :: L2) T =
        build_collision_free_schedule (L1 ++ L2) T) ∧
    (∀ (e : TimetableEntry) (T1 T2 : List TimetableEntry) (L : List ScheduledTask),
      pyStrip e.start_time = [] ∨ pyStrip e.end_time = [] →
      build_collision_free_schedule L (T1 ++ e :: T2) =
        build_collision_free_schedule L (T1 ++ T2)) ∧
    (∀ (T : List TimetableEntry) (L : List ScheduledTask),
      (build_collision_free_schedule [] T).isSome →
      (build_collision_free_schedule L T).isSome) := by
  refine ⟨?_, ?_, ?_⟩
  · intro L1 L2 t T hnone
    refine build_congr_fitted T ?_
    intro fixed
    rw [List.filter_append, List.filter_append, List.filter_cons]
    cases hcl : isClassTask t with
    | true => simp
    | false =>
      simp only [hcl, Bool.not_false, if_true]
      rw [List.flatMap_append, List.flatMap_append, List.flatMap_cons]
      have : fitTask fixed t = [] := by unfold fitTask; rw [hnone]
      rw [this, List.nil_append]
  · intro e T1 T2 L hempty
    exact build_congr_timetable (parseCandidates_skip hempty T1 T2 [])
  · intro T L h0
    obtain ⟨out0, hout0⟩ := Option.isSome_iff_exists.1 h0
    obtain ⟨cs, class_tasks, fixed, merged0, hc, hct, hfx, hm0, hr0⟩ := build_some_elim hout0
    have hclp : ∀ t ∈ class_tasks, parses t := by
      obtain ⟨hperm, _, hall⟩ := sortTasksByStart_some hct
      exact fun t ht => hall t (hperm.subset ht)
    have hallp : ∀ t ∈ class_tasks ++
        (L.filter (fun t => !isClassTask t)).flatMap (fitTask fixed), parses t := by
      intro t ht
      rcases List.mem_append.1 ht with ht | ht
      · exact hclp t ht
      · obtain ⟨p, _, hp⟩ := List.mem_flatMap.1 ht
        exact (fitTask_good hp).1
    obtain ⟨merged, hm⟩ := sortTasksByStart_total hallp
    have hmp : ∀ t ∈ merged, parses t := by
      obtain ⟨hperm, _, hall⟩ := sortTasksByStart_some hm
      exact fun t ht => hall t (hperm.subset ht)
    obtain ⟨out, hr⟩ := resolve_total hmp
    rw [build_some_intro hc hct hfx hm hr]
    rfl

/-- Witness for C9: an unparsable proposal `"lunch???"` is dropped, an empty
commitment is skipped, and garbage proposals cannot make a working timetable
raise. -/
theorem claim_C9_witness :
    (parse_slot "lunch???".data = none ∧
      pyStrip "  ".data = ([] : List Char) ∧
      (build_collision_free_schedule []
        [⟨"09:00".data, "10:00".data, "Math".data, true⟩]).isSome) ∧
    build_collision_free_schedule [⟨"lunch???".data, "Lunch".data, true, 30⟩] [] =
      build_collision_free_schedule [] [] ∧
    build_collision_free_schedule [] [⟨"  ".data, "10:00".data, "Math".data, true⟩] =
      build_collision_free_schedule [] [] ∧
    (build_collision_free_schedule [⟨"lunch???".data, "Lunch".data, true, 30⟩]
      [⟨"09:00".data, "10:00".data, "Math".data, true⟩]).isSome := by
  refine ⟨⟨by decide, by decide, by decide⟩, ?_, ?_, ?_⟩
  · exact claim_C9.1 [] [] ⟨"lunch???".data, "Lunch".data, true, 30⟩ [] (by decide)
  · exact claim_C9.2.1 ⟨"  ".data, "10:00".data, "Math".data, true⟩ [] [] [] (Or.inl (by decide))
  · exact claim_C9.2.2 [⟨"09:00".data, "10:00".data, "Math".data, true⟩]
      [⟨"lunch???".data, "Lunch".data, true, 30⟩] (by decide)

/-! ### Claim C2 -/

theorem isClassTask_mkClassTask (c : Candidate) : isClassTask (mkClassTask c) = true := by
  show pyStartswith ("[CLASS] ".data ++ c.subject) CLASS_TAG = true
  unfold pyStartswith CLASS_TAG
  rw [List.isPrefixOf_iff_prefix]
  exact ⟨' ' :: c.subject, rfl⟩

theorem resolveLoop_class_mem :
    ∀ (rest : List ScheduledTask) (prev : ScheduledTask) (acc out : List ScheduledTask),
      resolveLoop prev acc rest = some out →
      ∀ t : ScheduledTask, isClassTask t = true → (t = prev ∨ t ∈ acc ∨ t ∈ rest) →
        t ∈ out := by
  intro rest
  induction rest with
  | nil =>
    intro prev acc out h t hcl hmem
    simp only [resolveLoop, Option.some.injEq] at h
    subst h
    rw [List.mem_reverse]
    rcases hmem with rfl | hmem | hmem
    · exact List.mem_cons_self _ _
    · exact List.mem_cons_of_mem _ hmem
    · simp at hmem
  | cons task rest ih =>
    intro prev acc out h t hcl hmem
    unfold resolveLoop at h
    cases hp : parse_slot prev.time_slot with
    | none => rw [hp] at h; exact absurd h (by simp)
    | some pp =>
      cases hq : parse_slot task.time_slot with
      | none => rw [hp, hq] at h; exact absurd h (by simp)
      | some qq =>
        rw [hp, hq] at h
        simp only [Option.bind_eq_bind, Option.some_bind] at h
        have hmem' : t = task ∨ t ∈ rest ∨ t = prev ∨ t ∈ acc := by
          rcases hmem with rfl | hmem | hmem
          · exact Or.inr (Or.inr (Or.inl rfl))
          · exact Or.inr (Or.inr (Or.inr hmem))
          · rcases List.mem_cons.1 hmem with rfl | hmem
            · exact Or.inl rfl
            · exact Or.inr (Or.inl hmem)
        split_ifs at h with h1 h2 h3 h4 h5
        · refine ih task (prev :: acc) out h t hcl ?_
          rcases hmem' with rfl | hmem' | rfl | hmem'
          · exact Or.inl rfl
          · exact Or.inr (Or.inr hmem')
          · exact Or.inr (Or.inl (List.mem_cons_self _ _))
          · exact Or.inr (Or.inl (List.mem_cons_of_mem _ hmem'))
        · refine ih task (prev :: acc) out h t hcl ?_
          rcases hmem' with rfl | hmem' | rfl | hmem'
          · exact Or.inl rfl
          · exact Or.inr (Or.inr hmem')
          · exact Or.inr (Or.inl (List.mem_cons_self _ _))
          · exact Or.inr (Or.inl (List.mem_cons_of_mem _ hmem'))
        · -- prev is a personal task being trimmed; a class `t` cannot be `prev`
          refine ih task (_ :: acc) out h t hcl ?_
          have hne : t ≠ prev := fun he => by rw [he] at hcl; rw [hcl] at h3; exact h3 rfl
          rcases hmem' with rfl | hmem' | rfl | hmem'
          · exact Or.inl rfl
          · exact Or.inr (Or.inr hmem')
          · exact absurd rfl hne
          · exact Or.inr (Or.inl (List.mem_cons_of_mem _ hmem'))
        · -- prev dropped
          refine ih task acc out h t hcl ?_
          have hne : t ≠ prev := fun he => by rw [he] at hcl; rw [hcl] at h3; exact h3 rfl
          rcases hmem' with rfl | hmem' | rfl | hmem'
          · exact Or.inl rfl
          · exact Or.inr (Or.inr hmem')
          · exact absurd rfl hne
          · exact Or.inr (Or.inl hmem')
        · -- push branch: incoming task is personal, so a class `t` is not it
          refine ih _ (prev :: acc) out h t hcl ?_
          have hne : t ≠ task := fun he => by rw [he] at hcl; rw [hcl] at h2; exact h2 rfl
          rcases hmem' with rfl | hmem' | rfl | hmem'
          · exact absurd rfl hne
          · exact Or.inr (Or.inr hmem')
          · exact Or.inr (Or.inl (List.mem_cons_self _ _))
          · exact Or.inr (Or.inl (List.mem_cons_of_mem _ hmem'))
        · -- task dropped
          refine ih prev acc out h t hcl ?_
          have hne : t ≠ task := fun he => by rw [he] at hcl; rw [hcl] at h2; exact h2 rfl
          rcases hmem' with rfl | hmem' | rfl | hmem'
          · exact absurd rfl hne
          · exact Or.inr (Or.inr hmem')
          · exact Or.inl rfl
          · exact Or.inr (Or.inl hmem')

theorem resolve_class_mem {l out : List ScheduledTask}
    (h : resolve_residual_overlaps l = some out) :
    ∀ t ∈ l, isClassTask t = true → t ∈ out := by
  intro t ht hcl
  cases l with
  | nil => simp at ht
  | cons m rest =>
    refine resolveLoop_class_mem rest m [] out h t hcl ?_
    rcases List.mem_cons.1 ht with rfl | ht
    · exact Or.inl rfl
    · exact Or.inr (Or.inr ht)

/-- C2: every anchor accepted by the Anchor Extractor (the `[CLASS]` tasks of
steps 1–2) appears, as the very same record — hence with the same `time_slot`
string, so identical interval position and width — in the final output of
`build_collision_free_schedule`; and every such anchor carries the `[CLASS]`
tag. -/
theorem claim_C2 :
    ∀ (L : List ScheduledTask) (T : List TimetableEntry)
      (out cls : List ScheduledTask),
      build_collision_free_schedule L T = some out →
      classTasksOf T = some cls →
      ∀ t ∈ cls, isClassTask t = true ∧ t ∈ out := by
  intro L T out cls hbuild hcls t ht
  obtain ⟨cs, class_tasks, fixed, merged, hc, hct, hfx, hm, hr⟩ := build_some_elim hbuild
  unfold classTasksOf at hcls
  rw [hc] at hcls
  simp only [Option.map_some', Option.some.injEq] at hcls
  subst hcls
  have hclass : isClassTask t = true := by
    obtain ⟨sel, _, h1, _⟩ := assignClasses_spec (sortCandidates cs) []
    rw [h1] at ht
    obtain ⟨c, _, rfl⟩ := List.mem_map.1 ht
    exact isClassTask_mkClassTask c
  refine ⟨hclass, ?_⟩
  have ht1 : t ∈ class_tasks := ((sortTasksByStart_some hct).1.mem_iff).2 ht
  have ht2 : t ∈ merged := by
    refine ((sortTasksByStart_some hm).1.mem_iff).2 ?_
    exact List.mem_append_left _ ht1
  exact resolve_class_mem hr t ht2 hclass

/-- Witness for C2: a class anchor surviving unchanged through a build whose
proposals collide with it. -/
theorem claim_C2_witness :
    (build_collision_free_schedule [⟨"09:30-10:30".data, "Gym".data, true, 60⟩]
        [⟨"09:00".data, "10:00".data, "Math".data, true⟩] =
      some [⟨"09:00-10:00".data, "[CLASS] Math".data, false, 60⟩,
        ⟨"10:00-10:30".data, "Gym".data, true, 30⟩] ∧
      classTasksOf [⟨"09:00".data, "10:00".data, "Math".data, true⟩] =
        some [⟨"09:00-10:00".data, "[CLASS] Math".data, false, 60⟩] ∧
      ⟨"09:00-10:00".data, "[CLASS] Math".data, false, 60⟩ ∈
        [(⟨"09:00-10:00".data, "[CLASS] Math".data, false, 60⟩ : ScheduledTask)]) ∧
    isClassTask ⟨"09:00-10:00".data, "[CLASS] Math".data, false, 60⟩ = true ∧
    (⟨"09:00-10:00".data, "[CLASS] Math".data, false, 60⟩ : ScheduledTask) ∈
      [(⟨"09:00-10:00".data, "[CLASS] Math".data, false, 60⟩ : ScheduledTask),
        ⟨"10:00-10:30".data, "Gym".data, true, 30⟩] := by
  refine ⟨⟨by decide, by decide, by decide⟩, ?_⟩
  exact claim_C2 [⟨"09:30-10:30".data, "Gym".data, true, 60⟩]
    [⟨"09:00".data, "10:00".data, "Math".data, true⟩]
    [⟨"09:00-10:00".data, "[CLASS] Math".data, false, 60⟩,
      ⟨"10:00-10:30".data, "Gym".data, true, 30⟩]
    [⟨"09:00-10:00".data, "[CLASS] Math".data, false, 60⟩] (by decide) (by decide)
    ⟨"09:00-10:00".data, "[CLASS] Math".data, false, 60⟩ (by decide)

/-! ### The chronological invariant of the conflict resolver -/

/-- A task is `Good` when its slot parses to a non-negative, positive-width
interval rendered canonically, and its duration field equals the width. -/
def Good (t : ScheduledTask) : Prop :=
  parses t ∧ 0 ≤ pstart t ∧ pstart t < pend t ∧
    t.estimated_minutes = pend t - pstart t ∧
    t.time_slot = make_slot (pstart t) (pend t)

/-- The task's parsed interval overlaps none of the intervals in `F`. -/
def AvoidsF (F : List (Int × Int)) (t : ScheduledTask) : Prop :=
  ∀ b ∈ F, ¬(pstart t < b.2 ∧ b.1 < pend t)

theorem mk_slot_fields {a b : Int} (ha : 0 ≤ a) (hab : a < b)
    (nm : PyStr) (fl : Bool) (est : Int) :
    parses (ScheduledTask.mk (make_slot a b) nm fl est) ∧
      pstart (ScheduledTask.mk (make_slot a b) nm fl est) = a ∧
      pend (ScheduledTask.mk (make_slot a b) nm fl est) = b := by
  have h : parse_slot (ScheduledTask.mk (make_slot a b) nm fl est).time_slot = some (a, b) :=
    parse_make_slot_lt ha hab
  obtain ⟨h1, h2, h3⟩ := parses_of_eq h
  exact ⟨h1, h2, h3⟩

theorem isClassTask_mk (s nm : PyStr) (fl : Bool) (est : Int) :
    isClassTask (ScheduledTask.mk s nm fl est) = pyStartswith nm CLASS_TAG := rfl

theorem resolveLoop_master (F : List (Int × Int)) :
    ∀ (rest : List ScheduledTask) (prev : ScheduledTask) (acc out : List ScheduledTask),
      resolveLoop prev acc rest = some out →
      (∀ t ∈ rest, Good t) →
      (∀ t ∈ rest, isClassTask t = false → AvoidsF F t) →
      List.Pairwise (fun a b => isClassTask b = true → pend a ≤ pstart b) rest →
      Good prev →
      (∀ t ∈ acc, Good t) →
      (isClassTask prev = false → AvoidsF F prev) →
      (∀ t ∈ acc, isClassTask t = false → AvoidsF F t) →
      List.Chain' (fun a b => pend b ≤ pstart a) (prev :: acc) →
      (∀ c ∈ rest, isClassTask c = true → pend prev ≤ pstart c) →
      (∀ t ∈ out, Good t ∧ (isClassTask t = false → AvoidsF F t)) ∧
        List.Chain' (fun a b => pend a ≤ pstart b) out := by
  intro rest
  induction rest with
  | nil =>
    intro prev acc out h hG hA hP gprev gacc aprev aacc chain d1
    simp only [resolveLoop, Option.some.injEq] at h
    subst h
    constructor
    · intro t ht
      rw [List.mem_reverse] at ht
      rcases List.mem_cons.1 ht with rfl | ht
      · exact ⟨gprev, aprev⟩
      · exact ⟨gacc t ht, aacc t ht⟩
    · rw [List.chain'_reverse]
      exact chain
  | cons task rest ih =>
    intro prev acc out h hG hA hP gprev gacc aprev aacc chain d1
    have gtask : Good task := hG task (by simp)
    have hGr : ∀ t ∈ rest, Good t := fun t ht => hG t (by simp [ht])
    have hAr : ∀ t ∈ rest, isClassTask t = false → AvoidsF F t :=
      fun t ht => hA t (by simp [ht])
    have hPr : List.Pairwise (fun a b => isClassTask b = true → pend a ≤ pstart b) rest :=
      (List.pairwise_cons.1 hP).2
    have hPhead : ∀ c ∈ rest, isClassTask c = true → pend task ≤ pstart c :=
      (List.pairwise_cons.1 hP).1
    unfold resolveLoop at h
    rw [parse_slot_eq_of_parses gprev.1, parse_slot_eq_of_parses gtask.1] at h
    simp only [Option.bind_eq_bind, Option.some_bind] at h
    split_ifs at h with h1 h2 h3 h4
    · -- no collision: append task
      refine ih task (prev :: acc) out h hGr hAr hPr gtask ?_ (hA task (by simp)) ?_ ?_ hPhead
      · intro t ht
        rcases List.mem_cons.1 ht with rfl | ht
        · exact gprev
        · exact gacc t ht
      · intro t ht
        rcases List.mem_cons.1 ht with rfl | ht
        · exact aprev
        · exact aacc t ht
      · exact List.Chain'.cons h1 chain
    · -- incoming class colliding with prev: impossible under the invariant
      exact absurd (d1 task (by simp) h2) (by omega)
    · exact absurd (d1 task (by simp) h2) (by omega)
    · exact absurd (d1 task (by simp) h2) (by omega)
    · -- push branch: task is personal, pushed forward to pend prev
      rename_i h5
      have hep : (0 : Int) ≤ pend prev := by
        obtain ⟨_, hsp, hlt, _, _⟩ := gprev
        omega
      have hlt : pend prev < pend task := by omega
      obtain ⟨ppar, pps, ppe⟩ :=
        mk_slot_fields hep hlt task.task_name task.is_attendance_safe (pend task - pend prev)
      have hclpush : isClassTask (ScheduledTask.mk (make_slot (pend prev) (pend task))
          task.task_name task.is_attendance_safe (pend task - pend prev)) = false := by
        rw [isClassTask_mk]
        have : isClassTask task = false := by
          cases hcl : isClassTask task
          · rfl
          · exact absurd hcl h2
        exact this
      have htaskcl : isClassTask task = false := by
        cases hcl : isClassTask task
        · rfl
        · exact absurd hcl h2
      refine ih _ (prev :: acc) out h hGr hAr hPr ?_ ?_ ?_ ?_ ?_ ?_
      · exact ⟨ppar, by rw [pps]; exact hep, by rw [pps, ppe]; exact hlt,
          by rw [pps, ppe], by rw [pps, ppe]⟩
      · intro t ht
        rcases List.mem_cons.1 ht with rfl | ht
        · exact gprev
        · exact gacc t ht
      · intro _
        intro b hb
        rw [pps, ppe]
        have hav := hA task (by simp) htaskcl b hb
        intro hcon
        exact hav ⟨by omega, hcon.2⟩
      · intro t ht
        rcases List.mem_cons.1 ht with rfl | ht
        · exact aprev
        · exact aacc t ht
      · refine List.Chain'.cons ?_ chain
        rw [pps]
      · intro c hc hcl
        rw [ppe]
        exact hPhead c hc hcl
    · -- drop branch: task is personal and vanishes
      exact ih prev acc out h hGr hAr hPr gprev gacc aprev aacc chain
        (fun c hc hcl => d1 c (by simp [hc]) hcl)

/-! ### Sane timetables and the pipeline invariants -/

/-- A timetable record is sane when it is skippable (empty start or end after
stripping) or both its times parse to minute values in `[0, 1440)` — i.e.
genuine `HH:MM` clock times. -/
def entrySane (e : TimetableEntry) : Bool :=
  (pyStrip e.start_time == []) || (pyStrip e.end_time == []) ||
    (match to_minutes (pyStrip e.start_time), to_minutes (pyStrip e.end_time) with
     | some v, some w =>
       decide (0 ≤ v) && decide (v < 1440) && decide (0 ≤ w) && decide (w < 1440)
     | _, _ => false)

/-- All records of the timetable are sane. -/
def SaneTimetable (T : List TimetableEntry) : Prop := ∀ e ∈ T, entrySane e = true

/-- Sanity of a step-1 candidate: start in `[0, 1440)` and a positive width
of at most 1440 minutes. -/
def CandSane (c : Candidate) : Prop :=
  0 ≤ c.start_m ∧ c.start_m < 1440 ∧ c.start_m < c.end_m ∧ c.end_m ≤ c.start_m + 1440

theorem parseCandidates_sane {T : List TimetableEntry} (hsane : SaneTimetable T) :
    ∀ seen, ∃ cs, parseCandidates T seen = some cs ∧ ∀ c ∈ cs, CandSane c := by
  induction T with
  | nil => intro seen; exact ⟨[], rfl, by simp⟩
  | cons e T ih =>
    intro seen
    have hsT : SaneTimetable T := fun x hx => hsane x (by simp [hx])
    have he : entrySane e = true := hsane e (by simp)
    show ∃ cs, parseCandidates (e :: T) seen = some cs ∧ _
    rw [parseCandidates]
    by_cases hempty : pyStrip e.start_time = [] ∨ pyStrip e.end_time = []
    · rw [if_pos hempty]
      exact ih hsT seen
    · rw [if_neg hempty]
      by_cases hdup : (pyStrip e.start_time, pyStrip e.end_time, e.subject) ∈ seen
      · rw [if_pos hdup]
        exact ih hsT seen
      · rw [if_neg hdup]
        unfold entrySane at he
        simp only [Bool.or_eq_true, beq_iff_eq] at he
        rcases he with (he | he) | he
        · exact absurd (Or.inl he) hempty
        · exact absurd (Or.inr he) hempty
        · cases hv : to_minutes (pyStrip e.start_time) with
          | none => rw [hv] at he; simp at he
          | some v =>
            cases hw : to_minutes (pyStrip e.end_time) with
            | none => rw [hv, hw] at he; simp at he
            | some w =>
              rw [hv, hw] at he
              simp only [Bool.and_eq_true, decide_eq_true_eq] at he
              obtain ⟨⟨⟨hv0, hv1⟩, hw0⟩, hw1⟩ := he
              obtain ⟨cs, hcs, hall⟩ :=
                ih hsT ((pyStrip e.start_time, pyStrip e.end_time, e.subject) :: seen)
              rw [hcs]
              simp only [Option.bind_eq_bind, Option.some_bind, Option.pure_def]
              refine ⟨_, rfl, ?_⟩
              intro c hc
              rcases List.mem_cons.1 hc with rfl | hc
              · unfold CandSane
                dsimp only
                split_ifs <;> constructor <;> omega
              · exact hall c hc

theorem class_task_fields {c : Candidate} (hc : CandSane c) :
    Good (mkClassTask c) ∧ isClassTask (mkClassTask c) = true ∧
      pstart (mkClassTask c) = c.start_m ∧ pend (mkClassTask c) = c.end_m := by
  obtain ⟨h0, h1, h2, h3⟩ := hc
  obtain ⟨hp, hps, hpe⟩ := mk_slot_fields h0 h2
    ("[CLASS] ".data ++ c.subject) (!c.critical) (c.end_m - c.start_m)
  have hcl := isClassTask_mkClassTask c
  unfold mkClassTask
  refine ⟨⟨hp, ?_, ?_, ?_, ?_⟩, hcl, hps, hpe⟩
  · rw [hps]; exact h0
  · rw [hps, hpe]; exact h2
  · rw [hps, hpe]
  · rw [hps, hpe]

theorem pipeline_invariants
    {L : List ScheduledTask} {cs : List Candidate}
    {class_tasks : List ScheduledTask} {fixed : List (Int × Int)}
    {merged out : List ScheduledTask}
    (hsanecs : ∀ c ∈ cs, CandSane c)
    (hct : sortTasksByStart (assignClasses (sortCandidates cs) []).1 = some class_tasks)
    (hfx : parseAll class_tasks = some fixed)
    (hm : sortTasksByStart (class_tasks ++
      (L.filter (fun t => !isClassTask t)).flatMap (fitTask fixed)) = some merged)
    (hr : resolve_residual_overlaps merged = some out) :
    (∀ t ∈ out, Good t ∧ (isClassTask t = false → AvoidsF fixed t)) ∧
      List.Chain' (fun a b => pend a ≤ pstart b) out ∧
      (∀ t ∈ merged, Good t) ∧
      (∀ t ∈ class_tasks, isClassTask t = true) := by
  -- facts about the pre-sort class task list
  obtain ⟨sel, hsub, h1, h2⟩ := assignClasses_spec (sortCandidates cs) []
  have hselsane : ∀ c ∈ sel, CandSane c := by
    intro c hc
    exact hsanecs c ((List.perm_insertionSort candLE cs).subset (hsub.subset hc))
  have hAfacts : ∀ t ∈ (assignClasses (sortCandidates cs) []).1,
      Good t ∧ isClassTask t = true := by
    intro t ht
    rw [h1] at ht
    obtain ⟨c, hc, rfl⟩ := List.mem_map.1 ht
    obtain ⟨hg, hcl, _, _⟩ := class_task_fields (hselsane c hc)
    exact ⟨hg, hcl⟩
  have hApair : List.Pairwise
      (fun a b => ¬(pstart a < pend b ∧ pstart b < pend a))
      (assignClasses (sortCandidates cs) []).1 := by
    have hd := assignClasses_disjoint (sortCandidates cs) [] (by simp)
    rw [h2, List.nil_append, List.pairwise_map] at hd
    rw [h1, List.pairwise_map]
    refine List.Pairwise.imp_of_mem ?_ hd
    intro a b ha hb hab
    obtain ⟨_, _, hpsa, hpea⟩ := class_task_fields (hselsane a ha)
    obtain ⟨_, _, hpsb, hpeb⟩ := class_task_fields (hselsane b hb)
    rw [hpsa, hpea, hpsb, hpeb]
    simp only [overlaps, Bool.and_eq_false_iff, decide_eq_false_iff_not] at hab
    rcases hab with hab | hab
    · exact fun hcon => hab hcon.1
    · exact fun hcon => hab hcon.2
  -- facts about the sorted class task list
  obtain ⟨hctperm, hctsorted, _⟩ := sortTasksByStart_some hct
  have hctfacts : ∀ t ∈ class_tasks, Good t ∧ isClassTask t = true :=
    fun t ht => hAfacts t (hctperm.subset ht)
  have hctpair : List.Pairwise (fun a b => ¬(pstart a < pend b ∧ pstart b < pend a))
      class_tasks := by
    refine (List.Perm.pairwise_iff ?_ hctperm).2 hApair
    intro a b hab hcon
    exact hab ⟨hcon.2, hcon.1⟩
  -- the fixed interval list is exactly the class intervals
  obtain ⟨hfxeq, _⟩ := parseAll_some hfx
  have hfixmem : ∀ t ∈ class_tasks, (pstart t, pend t) ∈ fixed := by
    intro t ht
    rw [hfxeq]
    exact List.mem_map.2 ⟨t, ht, rfl⟩
  -- facts about the fitted personal entries
  have hfitfacts : ∀ u ∈ (L.filter (fun t => !isClassTask t)).flatMap (fitTask fixed),
      Good u ∧ isClassTask u = false ∧ AvoidsF fixed u := by
    intro u hu
    obtain ⟨p, hp, hup⟩ := List.mem_flatMap.1 hu
    obtain ⟨hpar, hps, hpe, hest, hcanon, hname, havoid⟩ := fitTask_good hup
    refine ⟨⟨hpar, hps, hpe, hest, hcanon⟩, ?_, havoid⟩
    have hpcl : isClassTask p = false := by
      have := (List.mem_filter.1 hp).2
      cases hcl : isClassTask p
      · rfl
      · rw [hcl] at this; exact absurd this (by simp)
    show pyStartswith u.task_name CLASS_TAG = false
    rw [hname]
    exact hpcl
  -- facts about the merged list
  obtain ⟨hmperm, hmsorted, _⟩ := sortTasksByStart_some hm
  have hGm : ∀ t ∈ merged, Good t := by
    intro t ht
    rcases List.mem_append.1 (hmperm.subset ht) with h | h
    · exact (hctfacts t h).1
    · exact (hfitfacts t h).1
  have hAm : ∀ t ∈ merged, isClassTask t = false → AvoidsF fixed t := by
    intro t ht hcl
    rcases List.mem_append.1 (hmperm.subset ht) with h | h
    · rw [(hctfacts t h).2] at hcl; exact absurd hcl (by simp)
    · exact (hfitfacts t h).2.2
  have hDm : List.Pairwise
      (fun a b => (isClassTask a = true ∨ isClassTask b = true) →
        ¬(pstart a < pend b ∧ pstart b < pend a)) merged := by
    refine (List.Perm.pairwise_iff ?_ hmperm).2 ?_
    · intro a b hab hor hcon
      exact hab (Or.symm hor) ⟨hcon.2, hcon.1⟩
    · rw [List.pairwise_append]
      refine ⟨?_, ?_, ?_⟩
      · refine List.Pairwise.imp ?_ hctpair
        intro a b hab _
        exact hab
      · refine List.pairwise_of_forall_mem_list ?_
        intro a ha b hb hor
        exfalso
        rcases hor with hcl | hcl
        · rw [(hfitfacts a ha).2.1] at hcl; exact absurd hcl (by simp)
        · rw [(hfitfacts b hb).2.1] at hcl; exact absurd hcl (by simp)
      · intro a ha b hb _ hcon
        exact (hfitfacts b hb).2.2 (pstart a, pend a) (hfixmem a ha) ⟨hcon.2, hcon.1⟩
  have hRm : List.Pairwise
      (fun a b => isClassTask b = true → pend a ≤ pstart b) merged := by
    have hcomb := hmsorted.and hDm
    refine List.Pairwise.imp_of_mem ?_ hcomb
    intro a b ha hb hab hcl
    obtain ⟨hle, hd⟩ := hab
    have hgb := hGm b hb
    have hdis := hd (Or.inr hcl)
    obtain ⟨_, _, hwb, _, _⟩ := hgb
    by_cases hcon : pstart b < pend a
    · exact absurd ⟨by omega, hcon⟩ hdis
    · omega
  -- run the conflict-resolver master invariant
  cases hmerged : merged with
  | nil =>
    rw [hmerged] at hr
    simp only [resolve_residual_overlaps, Option.some.injEq] at hr
    subst hr
    exact ⟨by simp, by simp, by simp [hmerged] at hGm ⊢, fun t ht => (hctfacts t ht).2⟩
  | cons m tail =>
    rw [hmerged] at hr hGm hAm hRm
    have hmaster := resolveLoop_master fixed tail m [] out hr
      (fun t ht => hGm t (by simp [ht]))
      (fun t ht => hAm t (by simp [ht]))
      (List.pairwise_cons.1 hRm).2
      (hGm m (by simp))
      (by simp)
      (hAm m (by simp))
      (by simp)
      (by simp)
      (List.pairwise_cons.1 hRm).1
    refine ⟨hmaster.1, hmaster.2, ?_, fun t ht => (hctfacts t ht).2⟩
    exact hGm

theorem chain_good_pairwise :
    ∀ {l : List ScheduledTask}, (∀ t ∈ l, Good t) →
      List.Chain' (fun a b => pend a ≤ pstart b) l →
      List.Pairwise (fun a b => pend a ≤ pstart b) l := by
  intro l
  induction l with
  | nil => intro _ _; exact List.Pairwise.nil
  | cons a l ih =>
    intro hg hc
    rw [List.chain'_cons'] at hc
    obtain ⟨hhead, htail⟩ := hc
    have hp := ih (fun t ht => hg t (by simp [ht])) htail
    refine List.Pairwise.cons ?_ hp
    intro b hb
    cases l with
    | nil => simp at hb
    | cons b0 l' =>
      have h0 : pend a ≤ pstart b0 := hhead b0 rfl
      rcases List.mem_cons.1 hb with rfl | hb
      · exact h0
      · have hg0 := hg b0 (by simp)
        have hrel := (List.pairwise_cons.1 hp).1 b hb
        obtain ⟨_, _, hw, _, _⟩ := hg0
        omega

/-! ### Claim C1 -/

/-- C1 counterexample: with hour values ≥ 24 in the timetable, the engine
returns two `[CLASS]` entries whose parsed half-open intervals overlap
(`[2000, 6100)` and `[6000, 2880)` with `2000 < 2880` and `6000 < 6100`):
the output is not pairwise non-overlapping. -/
theorem claim_C1_cex :
    build_collision_free_schedule []
        [⟨"100:00".data, "00:00".data, "A".data, false⟩,
         ⟨"33:20".data, "101:40".data, "B".data, false⟩] =
      some [⟨"33:20-101:40".data, "[CLASS] B".data, true, 4100⟩,
        ⟨"100:00-24:00".data, "[CLASS] A".data, true, -4560⟩] ∧
    parse_slot "33:20-101:40".data = some (2000, 6100) ∧
    parse_slot "100:00-24:00".data = some (6000, 2880) ∧
    overlaps 2000 6100 6000 2880 = true :=
  ⟨by decide, by decide, by decide, by decide⟩

/-- C1 (amended): for timetables whose records are skippable or carry genuine
`HH:MM` clock times (minute values in `[0, 1440)`), every list returned by
`build_collision_free_schedule` has entries in strictly increasing order of
parsed start time, and no two entries' half-open intervals overlap. -/
theorem claim_C1 :
    ∀ (L : List ScheduledTask) (T : List TimetableEntry) (out : List ScheduledTask),
      SaneTimetable T →
      build_collision_free_schedule L T = some out →
      (∀ t ∈ out, (parse_slot t.time_slot).isSome) ∧
        List.Pairwise (fun a b => ∀ pa pb : Int × Int,
          parse_slot a.time_slot = some pa → parse_slot b.time_slot = some pb →
          pa.1 < pb.1 ∧ overlaps pa.1 pa.2 pb.1 pb.2 = false) out := by
  intro L T out hsane hbuild
  obtain ⟨cs, class_tasks, fixed, merged, hc, hct, hfx, hm, hr⟩ := build_some_elim hbuild
  obtain ⟨cs', hcs', hsanecs⟩ := parseCandidates_sane hsane []
  rw [hc] at hcs'
  have hcseq : cs = cs' := Option.some.inj hcs'
  subst hcseq
  obtain ⟨hout, hchain, _, _⟩ := pipeline_invariants hsanecs hct hfx hm hr
  have hgood : ∀ t ∈ out, Good t := fun t ht => (hout t ht).1
  refine ⟨fun t ht => (hgood t ht).1, ?_⟩
  have hpair := chain_good_pairwise hgood hchain
  have hcomb := hpair.and (List.pairwise_of_forall_mem_list
    (fun a ha b _ => hgood a ha))
  refine List.Pairwise.imp_of_mem ?_ hcomb
  intro a b ha hb hab pa pb hpa hpb
  obtain ⟨hle, hga⟩ := hab
  have hgb := hgood b hb
  obtain ⟨hpara, hs0a, hwa, _, _⟩ := hga
  obtain ⟨hparb, hs0b, hwb, _, _⟩ := hgb
  have heqa : pa = (pstart a, pend a) := by
    have := parse_slot_eq_of_parses hpara
    rw [this] at hpa
    injection hpa with h
    exact h.symm
  have heqb : pb = (pstart b, pend b) := by
    have := parse_slot_eq_of_parses hparb
    rw [this] at hpb
    injection hpb with h
    exact h.symm
  subst heqa
  subst heqb
  constructor
  · dsimp only
    omega
  · dsimp only
    have hnb : ¬(pstart b < pend a) := by omega
    simp [overlaps, hnb]

/-- Witness for C1: a sane timetable with one class and one colliding
proposal yields a strictly ordered, non-overlapping plan. -/
theorem claim_C1_witness :
    (SaneTimetable [⟨"09:00".data, "10:00".data, "Math".data, true⟩] ∧
      build_collision_free_schedule [⟨"09:30-10:30".data, "Gym".data, true, 60⟩]
        [⟨"09:00".data, "10:00".data, "Math".data, true⟩] =
        some [⟨"09:00-10:00".data, "[CLASS] Math".data, false, 60⟩,
          ⟨"10:00-10:30".data, "Gym".data, true, 30⟩]) ∧
    (∀ t ∈ [(⟨"09:00-10:00".data, "[CLASS] Math".data, false, 60⟩ : ScheduledTask),
        ⟨"10:00-10:30".data, "Gym".data, true, 30⟩],
      (parse_slot t.time_slot).isSome) ∧
    List.Pairwise (fun a b => ∀ pa pb : Int × Int,
        parse_slot a.time_slot = some pa → parse_slot b.time_slot = some pb →
        pa.1 < pb.1 ∧ overlaps pa.1 pa.2 pb.1 pb.2 = false)
      [(⟨"09:00-10:00".data, "[CLASS] Math".data, false, 60⟩ : ScheduledTask),
        ⟨"10:00-10:30".data, "Gym".data, true, 30⟩] :=
  ⟨⟨by unfold SaneTimetable; decide, by decide⟩,
    claim_C1 [⟨"09:30-10:30".data, "Gym".data, true, 60⟩]
      [⟨"09:00".data, "10:00".data, "Math".data, true⟩]
      [⟨"09:00-10:00".data, "[CLASS] Math".data, false, 60⟩,
        ⟨"10:00-10:30".data, "Gym".data, true, 30⟩]
      (by unfold SaneTimetable; decide) (by decide)⟩

/-! ### Claim C10 -/

/-- C10 counterexample: a timetable entry with hour ≥ 24 yields an output
entry whose `estimated_minutes` is −4560 — neither strictly positive nor
equal to the width 2880 − 6000 = −3120 of the interval parsed from its
`time_slot`. -/
theorem claim_C10_cex :
    build_collision_free_schedule [] [⟨"100:00".data, "00:00".data, "A".data, false⟩] =
      some [⟨"100:00-24:00".data, "[CLASS] A".data, true, -4560⟩] ∧
    ¬((0 : Int) < -4560) ∧
    parse_slot "100:00-24:00".data = some (6000, 2880) ∧
    (-4560 : Int) ≠ 2880 - 6000 :=
  ⟨by decide, by decide, by decide, by decide⟩

/-- C10 (amended): for timetables whose records are skippable or carry
genuine `HH:MM` clock times, every entry of the returned list has strictly
positive `estimated_minutes` equal to the width of the interval parsed from
its `time_slot`. -/
theorem claim_C10 :
    ∀ (L : List ScheduledTask) (T : List TimetableEntry) (out : List ScheduledTask),
      SaneTimetable T →
      build_collision_free_schedule L T = some out →
      ∀ t ∈ out, ∃ p : Int × Int, parse_slot t.time_slot = some p ∧
        t.estimated_minutes = p.2 - p.1 ∧ 0 < t.estimated_minutes := by
  intro L T out hsane hbuild t ht
  obtain ⟨cs, class_tasks, fixed, merged, hc, hct, hfx, hm, hr⟩ := build_some_elim hbuild
  obtain ⟨cs', hcs', hsanecs⟩ := parseCandidates_sane hsane []
  rw [hc] at hcs'
  have hcseq : cs = cs' := Option.some.inj hcs'
  subst hcseq
  obtain ⟨hout, _, _, _⟩ := pipeline_invariants hsanecs hct hfx hm hr
  obtain ⟨⟨hpar, hs0, hw, hest, _⟩, _⟩ := hout t ht
  exact ⟨(pstart t, pend t), parse_slot_eq_of_parses hpar, hest, by omega⟩

/-- Witness for C10: the concrete plan of the C1 witness has positive,
width-consistent durations. -/
theorem claim_C10_witness :
    (SaneTimetable [⟨"09:00".data, "10:00".data, "Math".data, true⟩] ∧
      build_collision_free_schedule [⟨"09:30-10:30".data, "Gym".data, true, 60⟩]
        [⟨"09:00".data, "10:00".data, "Math".data, true⟩] =
        some [⟨"09:00-10:00".data, "[CLASS] Math".data, false, 60⟩,
          ⟨"10:00-10:30".data, "Gym".data, true, 30⟩] ∧
      (⟨"10:00-10:30".data, "Gym".data, true, 30⟩ : ScheduledTask) ∈
        [(⟨"09:00-10:00".data, "[CLASS] Math".data, false, 60⟩ : ScheduledTask),
          ⟨"10:00-10:30".data, "Gym".data, true, 30⟩]) ∧
    ∃ p : Int × Int,
      parse_slot (⟨"10:00-10:30".data, "Gym".data, true, 30⟩ : ScheduledTask).time_slot =
        some p ∧
      (⟨"10:00-10:30".data, "Gym".data, true, 30⟩ : ScheduledTask).estimated_minutes =
        p.2 - p.1 ∧
      0 < (⟨"10:00-10:30".data, "Gym".data, true, 30⟩ : ScheduledTask).estimated_minutes :=
  ⟨⟨by unfold SaneTimetable; decide, by decide, by decide⟩,
    claim_C10 [⟨"09:30-10:30".data, "Gym".data, true, 60⟩]
      [⟨"09:00".data, "10:00".data, "Math".data, true⟩]
      [⟨"09:00-10:00".data, "[CLASS] Math".data, false, 60⟩,
        ⟨"10:00-10:30".data, "Gym".data, true, 30⟩]
      (by unfold SaneTimetable; decide) (by decide)
      ⟨"10:00-10:30".data, "Gym".data, true, 30⟩ (by decide)⟩

/-! ### Claim C3 support -/

theorem resolveLoop_filter :
    ∀ (rest : List ScheduledTask) (prev : ScheduledTask) (acc out : List ScheduledTask),
      resolveLoop prev acc rest = some out →
      out.filter (fun t => isClassTask t) =
        (acc.reverse ++ prev :: rest).filter (fun t => isClassTask t) := by
  intro rest
  induction rest with
  | nil =>
    intro prev acc out h
    simp only [resolveLoop, Option.some.injEq] at h
    subst h
    rw [List.reverse_cons]
  | cons task rest ih =>
    intro prev acc out h
    unfold resolveLoop at h
    cases hp : parse_slot prev.time_slot with
    | none => rw [hp] at h; exact absurd h (by simp)
    | some pp =>
      cases hq : parse_slot task.time_slot with
      | none => rw [hp, hq] at h; exact absurd h (by simp)
      | some qq =>
        rw [hp, hq] at h
        simp only [Option.bind_eq_bind, Option.some_bind] at h
        split_ifs at h with h1 h2 h3 h4
        · rw [ih task (prev :: acc) out h, List.reverse_cons, List.append_assoc]
          rfl
        · rw [ih task (prev :: acc) out h, List.reverse_cons, List.append_assoc]
          rfl
        · -- trimmed personal replaces a personal prev
          rw [ih task _ out h, List.reverse_cons, List.append_assoc]
          have hprev : isClassTask prev = false := by
            cases hcl : isClassTask prev
            · rfl
            · exact absurd hcl h3
          have htrim : isClassTask (ScheduledTask.mk (make_slot pp.1 qq.1) prev.task_name
              prev.is_attendance_safe (qq.1 - pp.1)) = false := by
            rw [isClassTask_mk]
            exact hprev
          simp [List.filter_append, List.filter_cons, htrim, hprev]
        · -- personal prev popped
          rw [ih task acc out h]
          have hprev : isClassTask prev = false := by
            cases hcl : isClassTask prev
            · rfl
            · exact absurd hcl h3
          simp [List.filter_append, List.filter_cons, hprev]
        · -- personal task pushed
          rename_i h5
          rw [ih _ (prev :: acc) out h, List.reverse_cons, List.append_assoc]
          have htask : isClassTask task = false := by
            cases hcl : isClassTask task
            · rfl
            · exact absurd hcl h2
          have hpush : isClassTask (ScheduledTask.mk (make_slot pp.2 qq.2) task.task_name
              task.is_attendance_safe (qq.2 - pp.2)) = false := by
            rw [isClassTask_mk]
            exact htask
          simp [List.filter_append, List.filter_cons, hpush, htask]
        · -- personal task dropped
          rw [ih prev acc out h]
          have htask : isClassTask task = false := by
            cases hcl : isClassTask task
            · rfl
            · exact absurd hcl h2
          simp [List.filter_append, List.filter_cons, htask]

theorem resolve_filter {l out : List ScheduledTask}
    (h : resolve_residual_overlaps l = some out) :
    out.filter (fun t => isClassTask t) = l.filter (fun t => isClassTask t) := by
  cases l with
  | nil =>
    simp only [resolve_residual_overlaps, Option.some.injEq] at h
    subst h
    rfl
  | cons t rest =>
    have := resolveLoop_filter rest t [] out h
    simpa using this

theorem resolveLoop_of_chain :
    ∀ (rest : List ScheduledTask) (prev : ScheduledTask) (acc : List ScheduledTask),
      parses prev → (∀ t ∈ rest, parses t) →
      List.Chain' (fun a b => pend a ≤ pstart b) (prev :: rest) →
      resolveLoop prev acc rest = some (acc.reverse ++ prev :: rest) := by
  intro rest
  induction rest with
  | nil =>
    intro prev acc _ _ _
    simp [resolveLoop]
  | cons task rest ih =>
    intro prev acc hprev hall hchain
    have htask : parses task := hall task (by simp)
    have hrel : pend prev ≤ pstart task := by
      rw [List.chain'_cons] at hchain
      exact hchain.1
    unfold resolveLoop
    rw [parse_slot_eq_of_parses hprev, parse_slot_eq_of_parses htask]
    simp only [Option.bind_eq_bind, Option.some_bind]
    rw [if_pos (by dsimp only; omega : (pstart task, pend task).1 ≥ (pstart prev, pend prev).2)]
    rw [ih task (prev :: acc) htask (fun t ht => hall t (by simp [ht]))
      ((List.chain'_cons.1 hchain).2)]
    rw [List.reverse_cons, List.append_assoc]
    rfl

theorem resolve_of_chain {l : List ScheduledTask}
    (hp : ∀ t ∈ l, parses t)
    (hc : List.Chain' (fun a b => pend a ≤ pstart b) l) :
    resolve_residual_overlaps l = some l := by
  cases l with
  | nil => rfl
  | cons t rest =>
    have := resolveLoop_of_chain rest t [] (hp t (by simp))
      (fun u hu => hp u (by simp [hu])) hc
    simpa using this

theorem perm_sorted_unique {l₁ l₂ : List ScheduledTask}
    (hperm : l₁.Perm l₂)
    (h₁ : List.Pairwise (fun a b => pstart a ≤ pstart b) l₁)
    (h₂ : List.Pairwise (fun a b => pstart a < pstart b) l₂) :
    l₁ = l₂ := by
  haveI : IsAntisymm ScheduledTask (fun a b => pstart a < pstart b) :=
    ⟨fun a b hab hba => absurd (lt_trans hab hba) (lt_irrefl _)⟩
  have hne₂ : List.Pairwise (fun a b => pstart a ≠ pstart b) l₂ :=
    h₂.imp (fun hab => ne_of_lt hab)
  have hnodup₂ : (l₂.map pstart).Nodup := List.pairwise_map.2 hne₂
  have hnodup₁ : (l₁.map pstart).Nodup := ((hperm.map pstart).nodup_iff).2 hnodup₂
  have hne₁ : List.Pairwise (fun a b => pstart a ≠ pstart b) l₁ :=
    List.pairwise_map.1 hnodup₁
  have h₁' : List.Pairwise (fun a b => pstart a < pstart b) l₁ := by
    refine (h₁.and hne₁).imp ?_
    intro a b hab
    exact lt_of_le_of_ne hab.1 hab.2
  exact List.eq_of_perm_of_sorted hperm h₁' h₂

theorem fitTask_id {fixed : List (Int × Int)} {u : ScheduledTask}
    (hg : Good u) (hav : AvoidsF fixed u) : fitTask fixed u = [u] := by
  obtain ⟨hpar, hs0, hw, hest, hcanon⟩ := hg
  unfold fitTask
  rw [parse_slot_eq_of_parses hpar]
  dsimp only
  rw [subtract_intervals_noop (fun b hb => by have := hav b hb; omega)]
  have hle : ¬(pend u - pstart u ≤ 0) := by omega
  simp only [List.filterMap_cons, List.filterMap_nil, if_neg hle]
  rw [← hcanon, ← hest]

theorem flatMap_id_of_singleton {l : List ScheduledTask}
    {f : ScheduledTask → List ScheduledTask}
    (h : ∀ u ∈ l, f u = [u]) : l.flatMap f = l := by
  induction l with
  | nil => rfl
  | cons a l ih =>
    rw [List.flatMap_cons, h a (by simp), ih (fun u hu => h u (by simp [hu]))]
    rfl

/-! ### Claim C3 -/

/-- C3 counterexample: with an hour-≥ 24 timetable entry, feeding the
engine's own output back as the proposal list does not reproduce it — the
pushed fragment `"100:00-108:20"` and the reversed class `"100:00-24:00"`
swap places on the second run. -/
theorem claim_C3_cex :
    build_collision_free_schedule
        [⟨"33:20-108:20".data, "T1".data, true, 0⟩,
         ⟨"50:00-116:40".data, "T2".data, true, 0⟩]
        [⟨"100:00".data, "00:00".data, "A".data, false⟩] =
      some [⟨"33:20-100:00".data, "T1".data, true, 4000⟩,
        ⟨"100:00-108:20".data, "T1".data, true, 500⟩,
        ⟨"100:00-24:00".data, "[CLASS] A".data, true, -4560⟩] ∧
    build_collision_free_schedule
        [⟨"33:20-100:00".data, "T1".data, true, 4000⟩,
         ⟨"100:00-108:20".data, "T1".data, true, 500⟩,
         ⟨"100:00-24:00".data, "[CLASS] A".data, true, -4560⟩]
        [⟨"100:00".data, "00:00".data, "A".data, false⟩] ≠
      some [⟨"33:20-100:00".data, "T1".data, true, 4000⟩,
        ⟨"100:00-108:20".data, "T1".data, true, 500⟩,
        ⟨"100:00-24:00".data, "[CLASS] A".data, true, -4560⟩] :=
  ⟨by decide, by decide⟩

/-- C3 (amended): for timetables whose records are skippable or carry genuine
`HH:MM` clock times, the engine is idempotent — feeding its own output back
as the proposal list (with the same timetable) reproduces the same output. -/
theorem claim_C3 :
    ∀ (L : List ScheduledTask) (T : List TimetableEntry) (O : List ScheduledTask),
      SaneTimetable T →
      build_collision_free_schedule L T = some O →
      build_collision_free_schedule O T = some O := by
  intro L T O hsane hbuild
  obtain ⟨cs, class_tasks, fixed, merged, hc, hct, hfx, hm, hr⟩ := build_some_elim hbuild
  obtain ⟨cs', hcs', hsanecs⟩ := parseCandidates_sane hsane []
  rw [hc] at hcs'
  have hcseq : cs = cs' := Option.some.inj hcs'
  subst hcseq
  obtain ⟨hout, hchain, hGm, hcltag⟩ := pipeline_invariants hsanecs hct hfx hm hr
  obtain ⟨hmperm, hmsorted, hmparse⟩ := sortTasksByStart_some hm
  have hfitcl : ∀ u ∈ (L.filter (fun t => !isClassTask t)).flatMap (fitTask fixed),
      isClassTask u = false := by
    intro u hu
    obtain ⟨p, hpmem, hup⟩ := List.mem_flatMap.1 hu
    obtain ⟨_, _, _, _, _, hname, _⟩ := fitTask_good hup
    have hpcl : isClassTask p = false := by
      have hmf := (List.mem_filter.1 hpmem).2
      cases hcl : isClassTask p
      · rfl
      · rw [hcl] at hmf; exact absurd hmf (by simp)
    show pyStartswith u.task_name CLASS_TAG = false
    rw [hname]
    exact hpcl
  have hOfilter : O.filter (fun t => isClassTask t) =
      merged.filter (fun t => isClassTask t) := resolve_filter hr
  have hclsfix : class_tasks.filter (fun t => isClassTask t) = class_tasks :=
    List.filter_eq_self.2 (fun t ht => by rw [hcltag t ht])
  have hfitfix : ((L.filter (fun t => !isClassTask t)).flatMap (fitTask fixed)).filter
      (fun t => isClassTask t) = [] := by
    rw [List.filter_eq_nil_iff]
    intro u hu
    rw [hfitcl u hu]
    simp
  have hMfilter : (merged.filter (fun t => isClassTask t)).Perm class_tasks := by
    have h1 := hmperm.filter (fun t => isClassTask t)
    rw [List.filter_append, hclsfix, hfitfix, List.append_nil] at h1
    exact h1
  have hpersgood : ∀ u ∈ O.filter (fun t => !isClassTask t), Good u ∧ AvoidsF fixed u := by
    intro u hu
    obtain ⟨huO, hcl⟩ := List.mem_filter.1 hu
    have hclf : isClassTask u = false := by
      cases h' : isClassTask u
      · rfl
      · rw [h'] at hcl; exact absurd hcl (by simp)
    exact ⟨(hout u huO).1, (hout u huO).2 hclf⟩
  have hfit2 : (O.filter (fun t => !isClassTask t)).flatMap (fitTask fixed) =
      O.filter (fun t => !isClassTask t) :=
    flatMap_id_of_singleton (fun u hu => fitTask_id (hpersgood u hu).1 (hpersgood u hu).2)
  have hOperm : (class_tasks ++ O.filter (fun t => !isClassTask t)).Perm O := by
    have hsplit := List.filter_append_perm (fun t => isClassTask t) O
    refine List.Perm.trans ?_ hsplit
    refine List.Perm.append ?_ (List.Perm.refl _)
    rw [hOfilter]
    exact hMfilter.symm
  have hOgood : ∀ t ∈ O, Good t := fun t ht => (hout t ht).1
  have hOpair := chain_good_pairwise hOgood hchain
  have hOstrict : List.Pairwise (fun a b => pstart a < pstart b) O := by
    have hcomb := hOpair.and
      (List.pairwise_of_forall_mem_list (fun a ha b _ => hOgood a ha))
    refine hcomb.imp ?_
    intro a b hab
    obtain ⟨hle, hga⟩ := hab
    obtain ⟨_, _, hw, _, _⟩ := hga
    omega
  have hparse2 : ∀ t ∈ class_tasks ++ O.filter (fun t => !isClassTask t), parses t := by
    intro t ht
    rcases List.mem_append.1 ht with ht | ht
    · exact hmparse t (List.mem_append_left _ ht)
    · exact ((hpersgood t ht).1).1
  obtain ⟨sorted2, hs2⟩ := sortTasksByStart_total hparse2
  obtain ⟨hs2perm, hs2sorted, _⟩ := sortTasksByStart_some hs2
  have hs2eq : sorted2 = O := perm_sorted_unique (hs2perm.trans hOperm) hs2sorted hOstrict
  have hres2 : resolve_residual_overlaps O = some O :=
    resolve_of_chain (fun t ht => (hOgood t ht).1) hchain
  refine build_some_intro hc hct hfx ?_ hres2
  rw [hfit2, hs2, hs2eq]

/-- Witness for C3: idempotence on the concrete one-class, one-proposal
build. -/
theorem claim_C3_witness :
    (SaneTimetable [⟨"09:00".data, "10:00".data, "Math".data, true⟩] ∧
      build_collision_free_schedule [⟨"09:30-10:30".data, "Gym".data, true, 60⟩]
        [⟨"09:00".data, "10:00".data, "Math".data, true⟩] =
        some [⟨"09:00-10:00".data, "[CLASS] Math".data, false, 60⟩,
          ⟨"10:00-10:30".data, "Gym".data, true, 30⟩]) ∧
    build_collision_free_schedule
        [⟨"09:00-10:00".data, "[CLASS] Math".data, false, 60⟩,
          ⟨"10:00-10:30".data, "Gym".data, true, 30⟩]
        [⟨"09:00".data, "10:00".data, "Math".data, true⟩] =
      some [⟨"09:00-10:00".data, "[CLASS] Math".data, false, 60⟩,
        ⟨"10:00-10:30".data, "Gym".data, true, 30⟩] :=
  ⟨⟨by unfold SaneTimetable; decide, by decide⟩,
    claim_C3 [⟨"09:30-10:30".data, "Gym".data, true, 60⟩]
      [⟨"09:00".data, "10:00".data, "Math".data, true⟩]
      [⟨"09:00-10:00".data, "[CLASS] Math".data, false, 60⟩,
        ⟨"10:00-10:30".data, "Gym".data, true, 30⟩]
      (by unfold SaneTimetable; decide) (by decide)⟩
